import Mathlib

/-!
Verification of the quiche dependency/caching engine (src/quiche/dep.py and
src/quiche/cache.py) against its natural-language specification.

The embedding models:
  * parameter maps as association lists from parameter name to a Python-like
    value (`PyVal`); `params.get(pn, None)` is `Params.getD` below,
  * the two-tier cache (module-level `CACHED_VALUES` plus the shelve file)
    as two association lists inside a state record `St`,
  * `time.time()` as a strictly increasing counter `St.clock`: every call to
    the clock returns the current counter and advances it,
  * task functions as Lean functions `List PyVal → List (String × PyVal) →
    PyVal` (positional input values, then keyword parameter bindings),
  * the unbounded recursion / `while` loops of the source as fuelled
    recursion: the `Outcome.out` result means the computation was still
    running when the fuel ran out, so a result that is `.out` for every fuel
    models non-termination,
  * `pickle.dumps` of the relevant-parameter tuple as the tuple itself
    (pickle is a deterministic, invertible serialization of it); the full
    target key `target + ":" + param_bytes` is therefore modelled as the pair
    of the target name and the serialized tuple.
Raised `ValueError`s are modelled by `Outcome.err`.
-/

/-- Python values that can appear as parameter values or task results.
`PyVal.none` is Python's `None`. -/
inductive PyVal where
  | none
  | int (n : Int)
  | str (s : String)
  deriving DecidableEq, Repr

/-- A parameters dictionary: association list from name to value
(first binding wins, like a Python dict with unique keys). -/
abbrev Params := List (String × PyVal)

/-- Association-list lookup (first match). -/
def lookupA {α β : Type} [DecidableEq α] (k : α) : List (α × β) → Option β
  | [] => Option.none
  | (a, b) :: t => if a = k then some b else lookupA k t

/-- Association-list update: replace the first binding of `k`, or append. -/
def setA {α β : Type} [DecidableEq α] (k : α) (v : β) : List (α × β) → List (α × β)
  | [] => [(k, v)]
  | (a, b) :: t => if a = k then (k, v) :: t else (a, b) :: setA k v t

/-- Association-list delete (first binding of `k`); `del d[k]` wrapped in
`try`/`except` in the source, so deleting a missing key is a no-op. -/
def delA {α β : Type} [DecidableEq α] (k : α) : List (α × β) → List (α × β)
  | [] => []
  | (a, b) :: t => if a = k then t else (a, b) :: delA k t

/-- `params.get(pn, None)` of dep.py. -/
def Params.getD (params : Params) (pn : String) : PyVal :=
  match lookupA pn params with
  | some v => v
  | Option.none => PyVal.none

/-- dep.py `params__bytes`: the tuple `((pn, params.get(pn, None)) for pn in
pnames)`, serialized.  The serialization (pickle) is modelled as the tuple
itself. -/
def params__bytes (pnames : List String) (params : Params) : List (String × PyVal) :=
  pnames.map (fun pn => (pn, params.getD pn))

/-- A full target key.  dep.py `mix_target` produces the string
`target + ":" + params__bytes(...)` where the serialized bytes are decoded
with `errors="replace"`; the model keeps the two components as a pair,
dropping that lossy decode. -/
abbrev Key := String × List (String × PyVal)

/-- dep.py `mix_target`.  The source appends the pickle bytes decoded with
`errors="replace"` to the target name; that decode is lossy (distinct byte
strings can decode to the same string), so the model keeps the undecoded
pair of name and serialized tuple, and no property resting on injectivity
of the decoded string is asserted of the program. -/
def mix_target (target : String) (relevant : List String) (params : Params) : Key :=
  (target, params__bytes relevant params)

/-- The mutable state of the engine: the in-memory table `CACHED_VALUES`,
the on-disk shelve store (keyed by the same full target keys; the `obj:`
prefix is constant and elided), and the clock counter. -/
structure St where
  mem : List (Key × (Nat × PyVal))
  dsk : List (Key × (Nat × PyVal))
  clock : Nat
  deriving DecidableEq, Repr

/-- dep.py `get_cache_time` (memory first, then `cache.check_time`),
expressed on a pre-mixed key. -/
def gct (S : St) (k : Key) : Option Nat :=
  match lookupA k S.mem with
  | some p => some p.1
  | Option.none => (lookupA k S.dsk).map (fun p => p.1)

/-- dep.py `get_cached` (memory first, then `cache.load_any`; any failure
degrades to "not available" = `none`), expressed on a pre-mixed key. -/
def gcv (S : St) (k : Key) : Option (Nat × PyVal) :=
  match lookupA k S.mem with
  | some p => some p
  | Option.none => lookupA k S.dsk

/-- dep.py `cache_value`.  Mirrors the order of operations of the source:
when not ephemeral, `cache.save_any` stores `(now(), value)` on disk (its own
clock draw, inside `cache.save_object`); then `ts := time.time()` is drawn;
then the memory table is updated (or the key deleted, when volatile); `ts` is
returned.  The model's counter advances on every draw, so the two draws here
come out distinct; the source's clock is only guaranteed non-decreasing, and
no property is asserted of the program that would force the two draws to
differ — only that they are separate draws, ordered disk first. -/
def cache_value (S : St) (target : String) (pnames : List String) (params : Params)
    (value : PyVal) (flags : List String) : Nat × St :=
  let k := mix_target target pnames params
  let S1 := if "ephemeral" ∈ flags then S
            else { S with dsk := setA k (S.clock, value) S.dsk, clock := S.clock + 1 }
  let ts := S1.clock
  let S2 := { S1 with clock := S1.clock + 1 }
  let S3 := if "volatile" ∈ flags then { S2 with mem := delA k S2.mem }
            else { S2 with mem := setA k (ts, value) S2.mem }
  (ts, S3)

/-- A task function: positional input values, then keyword parameter
bindings, producing a value. -/
abbrev TaskFn := List PyVal → List (String × PyVal) → PyVal

/-- A task descriptor: the `(inputs, params, function, flags)` quadruple of
`KNOWN_TARGETS`. -/
structure Descr where
  inputs : List String
  pnames : List String
  fn : TaskFn
  flags : List String

/-- The target registry: `TARGET_ALIASES`, `KNOWN_TARGETS`, and
`TARGET_GENERATORS` (a generator is modelled as a partial function from the
requested name to a descriptor; `none` covers both "pattern does not match"
and "factory raised", which the source swallows). -/
structure Registry where
  aliases : List (String × String)
  known : List (String × Descr)
  gens : List (String → Option Descr)

/-- Result of a fuelled computation: a value, a raised error, or
out-of-fuel (`out`, the model of a computation that is still running). -/
inductive Outcome (α : Type) where
  | ok (val : α)
  | err (msg : String)
  | out
  deriving Repr, DecidableEq

/-- The alias-resolution loop of dep.py `find_target`:
`while target in TARGET_ALIASES: target = TARGET_ALIASES[target]`.
Each iteration consumes one unit of fuel. -/
def walkAliases (fuel : Nat) (al : List (String × String)) (t : String) : Option String :=
  match fuel with
  | 0 => Option.none
  | fuel + 1 =>
    match lookupA t al with
    | Option.none => some t
    | some t2 => walkAliases fuel al t2

/-- First generator that matches and whose factory succeeds. -/
def firstGen : List (String → Option Descr) → String → Option Descr
  | [], _ => Option.none
  | g :: rest, t =>
    match g t with
    | some d => some d
    | Option.none => firstGen rest t

/-- dep.py `find_target`: resolve aliases, then known targets, then
generators; otherwise raise `ValueError("Unknown target ...")`. -/
def find_target (fuel : Nat) (R : Registry) (t : String) : Outcome Descr :=
  match walkAliases fuel R.aliases t with
  | Option.none => Outcome.out
  | some t2 =>
    match lookupA t2 R.known with
    | some d => Outcome.ok d
    | Option.none =>
      match firstGen R.gens t2 with
      | some d => Outcome.ok d
      | Option.none => Outcome.err "Unknown target"

/-- The insertion step of dep.py `gather_relevant_parameters`: scan `rv` for
the first position whose element is greater than `param` (insert there) or
equal to `param` (do not insert); append when no such position exists. -/
def insertRelevant (rv : List String) (param : String) : List String :=
  match rv with
  | [] => [param]
  | p :: rest =>
    if param < p then param :: p :: rest
    else if param = p then p :: rest
    else p :: insertRelevant rest param

/-- The inner double loop of `gather_relevant_parameters`: for each input,
fold its recursively gathered parameters into the accumulator via
`insertRelevant`.  Parametrized by the recursive call `g`. -/
def gatherFoldF (g : String → Outcome (List String)) :
    List String → List String → Outcome (List String)
  | [], rv => Outcome.ok rv
  | inp :: rest, rv =>
    match g inp with
    | Outcome.ok sub => gatherFoldF g rest (sub.foldl insertRelevant rv)
    | Outcome.err e => Outcome.err e
    | Outcome.out => Outcome.out

/-- dep.py `gather_relevant_parameters`: seed with the target's own declared
parameter list (in declaration order), then merge each input's recursively
gathered list. -/
def gather_relevant_parameters (R : Registry) : Nat → String → Outcome (List String)
  | 0, _ => Outcome.out
  | fuel + 1, t =>
    match find_target (fuel + 1) R t with
    | Outcome.ok d => gatherFoldF (gather_relevant_parameters R fuel) d.inputs d.pnames
    | Outcome.err e => Outcome.err e
    | Outcome.out => Outcome.out

/-- `[gather_relevant_parameters(inp) for inp in inputs]`. -/
def gatherEach (R : Registry) (fuel : Nat) : List String → Outcome (List (List String))
  | [] => Outcome.ok []
  | t :: rest =>
    match gather_relevant_parameters R fuel t with
    | Outcome.ok rel =>
      match gatherEach R fuel rest with
      | Outcome.ok rels => Outcome.ok (rel :: rels)
      | Outcome.err e => Outcome.err e
      | Outcome.out => Outcome.out
    | Outcome.err e => Outcome.err e
    | Outcome.out => Outcome.out

/-- The dependency-loading loop of the rebuild branch: for each input, fetch
its cached value (`get_cached`); `NotAvailable` raises.  Like Python `zip`,
the traversal stops at the shorter list. -/
def loadInputs (S : St) (params : Params) :
    List String → List (List String) → Option (List PyVal)
  | [], _ => some []
  | _, [] => some []
  | inp :: irest, rel :: rrest =>
    match gcv S (mix_target inp rel params) with
    | Option.none => Option.none
    | some p => (loadInputs S params irest rrest).map (fun vs => p.2 :: vs)

/-- `{ pn: params[pn] for pn in pnames if pn in params }`. -/
def pvaluesOf (pnames : List String) (params : Params) : List (String × PyVal) :=
  pnames.filterMap (fun pn => (lookupA pn params).map (fun v => (pn, v)))

/-- The recursive-input loop of `check_up_to_date`
(`times = [check_up_to_date(inp, params, knockout) for inp in inputs]`),
parametrized by the recursive call `f`.  Returns the list of timestamps, the
final state, and the concatenated invocation log. -/
def checkList (f : String → St → Outcome (Nat × St × List String)) :
    List String → St → Outcome (List Nat × St × List String)
  | [], S => Outcome.ok ([], S, [])
  | inp :: rest, S =>
    match f inp S with
    | Outcome.ok (ts, S1, iv1) =>
      match checkList f rest S1 with
      | Outcome.ok (times, S2, iv2) => Outcome.ok (ts :: times, S2, iv1 ++ iv2)
      | Outcome.err e => Outcome.err e
      | Outcome.out => Outcome.out
    | Outcome.err e => Outcome.err e
    | Outcome.out => Outcome.out

/-- dep.py `check_up_to_date`.  Returns the timestamp of the (now
up-to-date) target, the updated cache state, and the list of names whose
task function was invoked, in invocation order. -/
def check_up_to_date (R : Registry) (params : Params) :
    Nat → String → List String → St → Outcome (Nat × St × List String)
  | 0, _, _, _ => Outcome.out
  | fuel + 1, target, ko, S =>
    match find_target (fuel + 1) R target with
    | Outcome.ok d =>
      match gather_relevant_parameters R (fuel + 1) target with
      | Outcome.ok all_relevant =>
        match checkList (fun inp S0 => check_up_to_date R params fuel inp ko S0) d.inputs S with
        | Outcome.ok (times, S1, iv) =>
          match gatherEach R fuel d.inputs with
          | Outcome.ok subparams =>
            let myts : Option Nat :=
              if target ∈ ko then Option.none
              else gct S1 (mix_target target all_relevant params)
            let rebuildRes : Outcome (Nat × St × List String) :=
              match loadInputs S1 params d.inputs subparams with
              | Option.none => Outcome.err "Couldnt create dependency"
              | some ivalues =>
                let value := d.fn ivalues (pvaluesOf d.pnames params)
                let r := cache_value S1 target all_relevant params value d.flags
                Outcome.ok (r.1, r.2, iv ++ [target])
            match myts with
            | Option.none => rebuildRes
            | some m => if times.any (fun ts => m < ts) then rebuildRes
                        else Outcome.ok (m, S1, iv)
          | Outcome.err e => Outcome.err e
          | Outcome.out => Outcome.out
        | Outcome.err e => Outcome.err e
        | Outcome.out => Outcome.out
      | Outcome.err e => Outcome.err e
      | Outcome.out => Outcome.out
    | Outcome.err e => Outcome.err e
    | Outcome.out => Outcome.out

/-- dep.py `create`: check freshness (rebuilding as needed), then fetch the
newly-cached value; raise when it is still unavailable. -/
def create (R : Registry) (params : Params) (fuel : Nat) (target : String)
    (ko : List String) (S : St) : Outcome ((Nat × PyVal) × St × List String) :=
  match check_up_to_date R params fuel target ko S with
  | Outcome.ok (_, S1, iv) =>
    match gather_relevant_parameters R fuel target with
    | Outcome.ok rel =>
      match gcv S1 (mix_target target rel params) with
      | some p => Outcome.ok (p, S1, iv)
      | Option.none => Outcome.err "Failed to create target"
    | Outcome.err e => Outcome.err e
    | Outcome.out => Outcome.out
  | Outcome.err e => Outcome.err e
  | Outcome.out => Outcome.out

/-- dep.py `create_brave`: reach for a cached value without any freshness
check; fall back to `create` when unavailable. -/
def create_brave (R : Registry) (params : Params) (fuel : Nat) (target : String)
    (ko : List String) (S : St) : Outcome ((Nat × PyVal) × St × List String) :=
  match gather_relevant_parameters R fuel target with
  | Outcome.ok rel =>
    match gcv S (mix_target target rel params) with
    | some p => Outcome.ok (p, S, [])
    | Option.none => create R params fuel target ko S
  | Outcome.err e => Outcome.err e
  | Outcome.out => Outcome.out

/-! ### Iteration generators (dep.py `iter_task`) -/

/-- The `iter` value passed to input/param templates: either the literal
string `"start"` or a natural number. -/
inductive IterV where
  | start
  | num (n : Nat)
  deriving DecidableEq, Repr

def renderIter : IterV → String
  | IterV.start => "start"
  | IterV.num n => toString n

/-- `s.format(iter=ival, next=nval)` for the iteration templates. -/
def substIter (iv : IterV) (nv : Nat) (s : String) : String :=
  (s.replace "{iter}" (renderIter iv)).replace "{next}" (toString nv)

/-- The `iter`/`next` resolution of `iter_task.gen_target`.  The arguments
are the captured groups (`none` when the group is absent from the compiled
pattern, i.e. the placeholder did not occur in the output template); captured
text always consists of decimal digits, hence `Nat`. -/
def iterResolve : Option Nat → Option Nat → IterV × Nat
  | Option.none, some nv => (if nv ≤ 0 then IterV.start else IterV.num (nv - 1), nv)
  | some iv, Option.none => (IterV.num iv, iv + 1)
  | Option.none, Option.none => (IterV.start, 0)
  | some iv, some nv => (IterV.num iv, nv)

/-- The registered data of an iteration generator: template inputs/params,
the undecorated function (which expects the iteration number first), and
flags. -/
structure IterStuff where
  inputs : List String
  pnames : List String
  fn : Nat → List PyVal → List (String × PyVal) → PyVal
  flags : List String

/-- `iter_task.gen_target`: substitute the resolved `iter`/`next` values into
the templates and wrap the function so that it receives `next` first. -/
def iter_gen_target (stuff : IterStuff) (ival nval : Option Nat) : Descr :=
  let r := iterResolve ival nval
  { inputs := stuff.inputs.map (substIter r.1 r.2),
    pnames := stuff.pnames.map (substIter r.1 r.2),
    fn := fun args kwargs => stuff.fn r.2 args kwargs,
    flags := stuff.flags }

/-! ### Argument validation of the registration decorators -/

/-- The `isinstance` validation of dep.py `task` (lines 101-110).  An
argument is abstracted to whether it has the required shape; `true` means the
decorator accepts (registers) rather than raising `ValueError`.  The source
tests `inputs` twice: the second test (whose message speaks about params)
also inspects `inputs`. -/
def task_accepts (inputsIsSeq paramsIsSeq outputIsStr : Bool) : Bool :=
  inputsIsSeq && inputsIsSeq && outputIsStr

/-- The validation of dep.py `template_task` (lines 126-135), which does
check all three arguments. -/
def template_task_accepts (inputsIsSeq paramsIsSeq outputIsStr : Bool) : Bool :=
  inputsIsSeq && paramsIsSeq && outputIsStr

/-- The validation of dep.py `iter_task` (lines 192-197): `params` is never
inspected. -/
def iter_task_accepts (inputsIsSeq paramsIsSeq outputIsStr : Bool) : Bool :=
  inputsIsSeq && outputIsStr

/-! ### Invariants and auxiliary predicates -/

/-- Every cached timestamp is in the past: smaller than the clock. -/
def ltClock (S : St) : Prop :=
  (∀ k p, lookupA k S.mem = some p → p.1 < S.clock) ∧
  (∀ k p, lookupA k S.dsk = some p → p.1 < S.clock)

/-- Cached timestamps identify their entry: two entries (in either tier)
carrying the same timestamp sit at the same key, and a memory entry never
shares a timestamp with a disk entry.  This models that each `time.time()`
draw is distinct. -/
def distinctTs (S : St) : Prop :=
  (∀ k k' p p', lookupA k S.mem = some p → lookupA k' S.mem = some p' →
    p.1 = p'.1 → k = k') ∧
  (∀ k k' p p', lookupA k S.dsk = some p → lookupA k' S.dsk = some p' →
    p.1 = p'.1 → k = k') ∧
  (∀ k k' p p', lookupA k S.mem = some p → lookupA k' S.dsk = some p' →
    p.1 ≠ p'.1)

/-- State invariant: timestamps in the past and pairwise distinct, and the
two tables are genuine maps (no duplicate keys, as Python dicts and shelve
files are). -/
def StInv (S : St) : Prop :=
  ltClock S ∧ distinctTs S ∧ (S.mem.map Prod.fst).Nodup ∧ (S.dsk.map Prod.fst).Nodup

/-- No resolvable target carries both the `ephemeral` and the `volatile`
flag (the combination the source documents as unsupported). -/
def GoodR (R : Registry) : Prop :=
  ∀ fuel t d, find_target fuel R t = Outcome.ok d →
    ¬("ephemeral" ∈ d.flags ∧ "volatile" ∈ d.flags)

/-- `u` is up to date in state `S` with cached timestamp `m`: running the
freshness check (with fuel `g` and no knockout) completes, changes nothing,
invokes nothing, and reports `m`. -/
def Fresh (R : Registry) (params : Params) (g : Nat) (u : String) (S : St)
    (m : Nat) : Prop :=
  check_up_to_date R params g u [] S = Outcome.ok (m, S, [])

/-- Reachability in the dependency graph: `Reaches R t u` when `u` is `t`
itself or an input of a target reachable from `t` (through resolution). -/
inductive Reaches (R : Registry) : String → String → Prop where
  | refl (t : String) : Reaches R t t
  | step {t u v : String} {fuel : Nat} {d : Descr} :
      find_target fuel R t = Outcome.ok d → u ∈ d.inputs → Reaches R u v →
      Reaches R t v

/-- A set of names closed under alias lookup: every member has an alias
entry pointing back into the set.  Walking aliases from any member can never
leave the set, hence never terminates. -/
def InAliasCycle (al : List (String × String)) (C : List String) : Prop :=
  ∀ u ∈ C, ∃ v, lookupA u al = some v ∧ v ∈ C

/-- A decidable sufficient condition for `StInv`: all cached timestamps are
below the clock, the multiset of all cached timestamps (memory then disk) has
no duplicates, and the key columns have no duplicates. -/
def stInvCheck (S : St) : Bool :=
  ((S.mem.map fun kv => kv.2.1) ++ (S.dsk.map fun kv => kv.2.1)).all
    (fun ts => ts < S.clock) &&
  ((S.mem.map fun kv => kv.2.1) ++ (S.dsk.map fun kv => kv.2.1)).Nodup &&
  (S.mem.map Prod.fst).Nodup && (S.dsk.map Prod.fst).Nodup

/-! ### Concrete registries and states used by the individual claims -/

/-- The empty initial state: nothing cached, clock at zero. -/
def emptySt : St := { mem := [], dsk := [], clock := 0 }

def fnConst1 : TaskFn := fun _ _ => PyVal.int 1

def fnConst7 : TaskFn := fun _ _ => PyVal.int 7

def fnAddTen : TaskFn := fun args _ =>
  match args with
  | [PyVal.int n] => PyVal.int (n + 10)
  | _ => PyVal.none

/-- Registry for the C1 counterexample: `y` is an ordinary task and `t`
depends on it but is flagged both ephemeral and volatile, so a rebuild of
`t` stores nothing. -/
def c1Reg : Registry :=
  { aliases := [], gens := [],
    known := [("y", { inputs := [], pnames := [], fn := fnConst1, flags := [] }),
              ("t", { inputs := ["y"], pnames := [], fn := fnAddTen,
                      flags := ["ephemeral", "volatile"] })] }

/-- Initial state for the C1 counterexample: a stale persistent entry for
`t` (timestamp 0) survives from an earlier session; `y` is uncached. -/
def c1S0 : St := { mem := [], dsk := [(("t", []), (0, PyVal.int 99))], clock := 1 }

/-- The state after the first `create("t")` of the C1 counterexample. -/
def c1S1 : St :=
  { mem := [(("y", []), (2, PyVal.int 1))],
    dsk := [(("t", []), (0, PyVal.int 99)), (("y", []), (1, PyVal.int 1))],
    clock := 4 }

/-- The state after the second `create("t")` of the C1 counterexample: the
caches are unchanged but the clock advanced, because the task function of
`t` ran again. -/
def c1S2 : St :=
  { mem := [(("y", []), (2, PyVal.int 1))],
    dsk := [(("t", []), (0, PyVal.int 99)), (("y", []), (1, PyVal.int 1))],
    clock := 5 }

/-- One-task registry (no flags) used by several witnesses. -/
def w1Reg : Registry :=
  { aliases := [], gens := [],
    known := [("t", { inputs := [], pnames := [], fn := fnConst7, flags := [] })] }

/-- Registry with a two-step alias cycle, as in the spec's scenario 6. -/
def cycReg : Registry :=
  { aliases := [("latest", "model:v3"), ("model:v3", "latest")],
    known := [], gens := [] }

/-- Registry for C5: a task whose declared parameter list is not sorted. -/
def c5Reg : Registry :=
  { aliases := [], gens := [],
    known := [("t5", { inputs := [], pnames := ["b", "a"], fn := fnConst7,
                       flags := [] })] }

/-- Registry for C10: alias `a -> t` over a concrete task `t`. -/
def c10Reg : Registry :=
  { aliases := [("a", "t")], gens := [],
    known := [("t", { inputs := [], pnames := [], fn := fnConst7, flags := [] })] }

/-- State after `create("a")` on `c10Reg` from the empty state: the result
is cached under the full key built from the requested name `a`. -/
def c10S1 : St :=
  { mem := [(("a", []), (1, PyVal.int 7))],
    dsk := [(("a", []), (0, PyVal.int 7))],
    clock := 2 }

/-- State for the C7 witness: `t` is cached in both tiers. -/
def w7St : St :=
  { mem := [(("t", []), (1, PyVal.int 7))],
    dsk := [(("t", []), (0, PyVal.int 7))],
    clock := 2 }

/-- The restriction of a parameters dictionary to a list of names, in the
plain dictionary sense: a name absent from the dictionary stays absent
(`Option.none`), which is distinct from a name bound to Python `None`. -/
def restrictTo (rel : List String) (params : Params) : List (String × Option PyVal) :=
  rel.map (fun pn => (pn, lookupA pn params))

/-- Non-termination of resolution on the spec scenario-6 alias cycle: for
every fuel bound, `find_target` (and hence `create`) is still walking the
alias chain; in particular no exception is ever raised. -/
def c2NeverResolves : Prop :=
  (∀ fuel, find_target fuel cycReg "latest" = Outcome.out) ∧
  (∀ fuel, create cycReg [] fuel "latest" [] emptySt = Outcome.out)

/-- Registry for the C7 counterexample: `t7` depends on `y7` and carries
the unsupported ephemeral-and-volatile flag combination. -/
def c7Reg : Registry :=
  { aliases := [], gens := [],
    known := [("y7", { inputs := [], pnames := [], fn := fnConst1, flags := [] }),
              ("t7", { inputs := ["y7"], pnames := [], fn := fnAddTen,
                       flags := ["ephemeral", "volatile"] })] }

/-- State for the C7 counterexample: `t7` has a memory entry from an
earlier registration and an older persistent entry with a different value;
its dependency `y7` is fresher than the memory entry. -/
def c7S : St :=
  { mem := [(("t7", []), (5, PyVal.int 1)), (("y7", []), (6, PyVal.int 2))],
    dsk := [(("t7", []), (3, PyVal.int 99))],
    clock := 7 }

/-- The state after `create("t7")` of the C7 counterexample. -/
def c7S1 : St :=
  { mem := [(("y7", []), (6, PyVal.int 2))],
    dsk := [(("t7", []), (3, PyVal.int 99))],
    clock := 8 }

/-! ### Association-list lemmas -/

theorem lookupA_mem {α β : Type} [DecidableEq α] {k : α} {v : β} :
    ∀ {l : List (α × β)}, lookupA k l = some v → (k, v) ∈ l := by
  intro l
  induction l with
  | nil => intro h; simp [lookupA] at h
  | cons hd tl ih =>
    intro h
    rcases hd with ⟨a, b⟩
    by_cases hak : a = k
    · subst hak
      simp [lookupA] at h
      subst h
      exact List.mem_cons_self _ _
    · simp [lookupA, hak] at h
      exact List.mem_cons_of_mem _ (ih h)

theorem lookupA_setA_self {α β : Type} [DecidableEq α] (k : α) (v : β) :
    ∀ (l : List (α × β)), lookupA k (setA k v l) = some v := by
  intro l
  induction l with
  | nil => simp [setA, lookupA]
  | cons hd tl ih =>
    rcases hd with ⟨a, b⟩
    by_cases hak : a = k
    · subst hak; simp [setA, lookupA]
    · simp [setA, hak, lookupA, ih]

theorem lookupA_setA_ne {α β : Type} [DecidableEq α] {k k' : α} (v : β)
    (h : k' ≠ k) : ∀ (l : List (α × β)), lookupA k' (setA k v l) = lookupA k' l := by
  have hk : k ≠ k' := Ne.symm h
  intro l
  induction l with
  | nil => simp [setA, lookupA, if_neg hk]
  | cons hd tl ih =>
    rcases hd with ⟨a, b⟩
    by_cases hak : a = k
    · subst hak
      simp [setA, lookupA, if_neg hk]
    · simp [setA, hak, lookupA, ih]

theorem lookupA_delA_ne {α β : Type} [DecidableEq α] {k k' : α}
    (h : k' ≠ k) : ∀ (l : List (α × β)), lookupA k' (delA k l) = lookupA k' l := by
  have hk : k ≠ k' := Ne.symm h
  intro l
  induction l with
  | nil => simp [delA]
  | cons hd tl ih =>
    rcases hd with ⟨a, b⟩
    by_cases hak : a = k
    · subst hak
      simp [delA, lookupA, if_neg hk, ih]
    · simp [delA, hak, lookupA, ih]

theorem lookupA_delA_self {α β : Type} [DecidableEq α] {k : α} :
    ∀ {l : List (α × β)}, (l.map Prod.fst).Nodup → lookupA k (delA k l) = Option.none := by
  intro l
  induction l with
  | nil => intro _; simp [delA, lookupA]
  | cons hd tl ih =>
    intro hnd
    rcases hd with ⟨a, b⟩
    simp only [List.map_cons, List.nodup_cons] at hnd
    by_cases hak : a = k
    · subst hak
      simp only [delA, if_pos rfl]
      clear ih
      induction tl with
      | nil => simp [lookupA]
      | cons hd2 tl2 ih2 =>
        rcases hd2 with ⟨a2, b2⟩
        simp only [List.map_cons, List.mem_cons, List.nodup_cons] at hnd
        have ha2 : a2 ≠ a := fun hh => hnd.1 (Or.inl hh.symm)
        simp only [lookupA, if_neg ha2]
        exact ih2 ⟨fun hh => hnd.1 (Or.inr hh), hnd.2.2⟩
    · simp only [delA, if_neg hak, lookupA, if_neg hak]
      exact ih hnd.2

theorem setA_cons {α β : Type} [DecidableEq α] (k a : α) (v b : β)
    (l : List (α × β)) :
    setA k v ((a, b) :: l) = if a = k then (k, v) :: l else (a, b) :: setA k v l := rfl

theorem delA_cons {α β : Type} [DecidableEq α] (k a : α) (b : β)
    (l : List (α × β)) :
    delA k ((a, b) :: l) = if a = k then l else (a, b) :: delA k l := rfl

theorem keys_setA_subset {α β : Type} [DecidableEq α] (k : α) (v : β) :
    ∀ {l : List (α × β)} {a : α}, a ∈ (setA k v l).map Prod.fst →
      a ∈ l.map Prod.fst ∨ a = k := by
  intro l
  induction l with
  | nil =>
    intro a hmem
    simp [setA] at hmem
    right; exact hmem
  | cons hd tl ih =>
    intro a hmem
    rcases hd with ⟨a2, b2⟩
    by_cases h2 : a2 = k
    · rw [setA_cons, if_pos h2] at hmem
      simp only [List.map_cons, List.mem_cons] at hmem ⊢
      rcases hmem with h | h
      · right; exact h
      · left; exact Or.inr h
    · rw [setA_cons, if_neg h2] at hmem
      simp only [List.map_cons, List.mem_cons] at hmem ⊢
      rcases hmem with h | h
      · left; exact Or.inl h
      · rcases ih h with h3 | h3
        · left; exact Or.inr h3
        · right; exact h3

theorem nodupKeys_setA {α β : Type} [DecidableEq α] (k : α) (v : β) :
    ∀ {l : List (α × β)}, (l.map Prod.fst).Nodup →
      ((setA k v l).map Prod.fst).Nodup := by
  intro l
  induction l with
  | nil => intro _; simp [setA]
  | cons hd tl ih =>
    intro hnd
    rcases hd with ⟨a, b⟩
    simp only [List.map_cons, List.nodup_cons] at hnd
    by_cases hak : a = k
    · rw [setA_cons, if_pos hak]
      simp only [List.map_cons, List.nodup_cons]
      exact ⟨fun hmem => hnd.1 (hak ▸ hmem), hnd.2⟩
    · rw [setA_cons, if_neg hak]
      simp only [List.map_cons, List.nodup_cons]
      refine ⟨?_, ih hnd.2⟩
      intro hmem
      rcases keys_setA_subset k v hmem with h | h
      · exact hnd.1 h
      · exact hak h

theorem keys_delA_subset {α β : Type} [DecidableEq α] (k : α) :
    ∀ {l : List (α × β)} {a : α}, a ∈ (delA k l).map Prod.fst →
      a ∈ l.map Prod.fst := by
  intro l
  induction l with
  | nil => intro a hmem; simp [delA] at hmem
  | cons hd tl ih =>
    intro a hmem
    rcases hd with ⟨a2, b2⟩
    by_cases h2 : a2 = k
    · rw [delA_cons, if_pos h2] at hmem
      simp only [List.map_cons, List.mem_cons]
      exact Or.inr hmem
    · rw [delA_cons, if_neg h2] at hmem
      simp only [List.map_cons, List.mem_cons] at hmem ⊢
      rcases hmem with h | h
      · exact Or.inl h
      · exact Or.inr (ih h)

theorem nodupKeys_delA {α β : Type} [DecidableEq α] (k : α) :
    ∀ {l : List (α × β)}, (l.map Prod.fst).Nodup →
      ((delA k l).map Prod.fst).Nodup := by
  intro l
  induction l with
  | nil => intro _; simp [delA]
  | cons hd tl ih =>
    intro hnd
    rcases hd with ⟨a, b⟩
    simp only [List.map_cons, List.nodup_cons] at hnd
    by_cases hak : a = k
    · rw [delA_cons, if_pos hak]; exact hnd.2
    · rw [delA_cons, if_neg hak]
      simp only [List.map_cons, List.nodup_cons]
      exact ⟨fun hmem => hnd.1 (keys_delA_subset k hmem), ih hnd.2⟩

/-- The decidable check implies the full invariant. -/
theorem stInv_of_check {S : St} (h : stInvCheck S = true) : StInv S := by
  have h1 := (Bool.and_eq_true _ _).mp ((Bool.and_eq_true _ _).mp
    ((Bool.and_eq_true _ _).mp h).1).1
  have hts : ∀ ts ∈ (S.mem.map fun kv => kv.2.1) ++ (S.dsk.map fun kv => kv.2.1),
      ts < S.clock := by
    intro ts hmem
    exact of_decide_eq_true (List.all_eq_true.mp h1.1 ts hmem)
  have hnodup : (((S.mem.map fun kv => kv.2.1) ++
      (S.dsk.map fun kv => kv.2.1))).Nodup := of_decide_eq_true h1.2
  have hkm : (S.mem.map Prod.fst).Nodup :=
    of_decide_eq_true ((Bool.and_eq_true _ _).mp ((Bool.and_eq_true _ _).mp h).1).2
  have hkd : (S.dsk.map Prod.fst).Nodup :=
    of_decide_eq_true ((Bool.and_eq_true _ _).mp h).2
  refine ⟨⟨?_, ?_⟩, ⟨?_, ?_, ?_⟩, hkm, hkd⟩
  · intro k p hk
    exact hts _ (List.mem_append_left _ (List.mem_map_of_mem _ (lookupA_mem hk)))
  · intro k p hk
    exact hts _ (List.mem_append_right _ (List.mem_map_of_mem _ (lookupA_mem hk)))
  · intro k k' p p' hk hk' heq
    have := List.inj_on_of_nodup_map (List.Nodup.of_append_left hnodup)
      (lookupA_mem hk) (lookupA_mem hk') heq
    exact congrArg Prod.fst this
  · intro k k' p p' hk hk' heq
    have := List.inj_on_of_nodup_map (List.Nodup.of_append_right hnodup)
      (lookupA_mem hk) (lookupA_mem hk') heq
    exact congrArg Prod.fst this
  · intro k k' p p' hk hk' heq
    have hdisj := List.disjoint_of_nodup_append hnodup
    exact hdisj (List.mem_map_of_mem _ (lookupA_mem hk))
      (heq ▸ List.mem_map_of_mem (fun kv : Key × (Nat × PyVal) => kv.2.1)
        (lookupA_mem hk'))

/-! ### Alias-cycle lemmas (C2) -/

/-- Walking aliases from inside a cycle never terminates, whatever the
fuel. -/
theorem walk_cycle_none {al : List (String × String)} {C : List String}
    (hC : InAliasCycle al C) :
    ∀ (fuel : Nat) (t : String), t ∈ C → walkAliases fuel al t = Option.none := by
  intro fuel
  induction fuel with
  | zero => intro t _; rfl
  | succ fuel ih =>
    intro t ht
    obtain ⟨v, hv, hvC⟩ := hC t ht
    simp only [walkAliases, hv]
    exact ih v hvC

theorem find_target_out_of_walk {fuel : Nat} {R : Registry} {t : String}
    (h : walkAliases fuel R.aliases t = Option.none) :
    find_target fuel R t = Outcome.out := by
  simp [find_target, h]

theorem check_out_of_find {R : Registry} {params : Params} {t : String}
    {ko : List String} {S : St} :
    ∀ {fuel : Nat}, find_target fuel R t = Outcome.out →
      check_up_to_date R params fuel t ko S = Outcome.out := by
  intro fuel h
  cases fuel with
  | zero => rfl
  | succ fuel => simp [check_up_to_date, h]

theorem create_out_of_find {R : Registry} {params : Params} {t : String}
    {ko : List String} {S : St} {fuel : Nat}
    (h : find_target fuel R t = Outcome.out) :
    create R params fuel t ko S = Outcome.out := by
  simp [create, check_out_of_find h]

/-! ### C2 -/

/-- C2 counterexample: on the alias cycle `latest -> model:v3 -> latest`,
resolution never terminates and never raises, for every fuel bound; the
claim says `create` on such a name raises `CycleDetected` or
`UnknownTarget`. -/
theorem cycReg_cycle : InAliasCycle cycReg.aliases ["latest", "model:v3"] := by
  intro u hu
  simp only [List.mem_cons, List.not_mem_nil, or_false] at hu
  rcases hu with rfl | rfl
  · exact ⟨"model:v3", rfl, by simp⟩
  · exact ⟨"latest", rfl, by simp⟩

/-- C2 counterexample (second half): see the doc comment above. -/
theorem c2_counterexample : c2NeverResolves := by
  have hcyc : InAliasCycle cycReg.aliases ["latest", "model:v3"] := cycReg_cycle
  refine ⟨fun fuel => ?_, fun fuel => ?_⟩
  · exact find_target_out_of_walk (walk_cycle_none hcyc fuel "latest" (by decide))
  · exact create_out_of_find
      (find_target_out_of_walk (walk_cycle_none hcyc fuel "latest" (by decide)))

/-- C2 amended: when the alias chain from a requested name enters a cycle
(a set of names closed under alias lookup), target resolution does not
terminate — `find_target` and `create` are still running at every fuel
bound, and no exception is raised. -/
theorem c2_amended (R : Registry) (C : List String) (t : String)
    (params : Params) (ko : List String) (S : St)
    (hC : InAliasCycle R.aliases C) (ht : t ∈ C) :
    (∀ fuel, walkAliases fuel R.aliases t = Option.none) ∧
    (∀ fuel, find_target fuel R t = Outcome.out) ∧
    (∀ fuel, create R params fuel t ko S = Outcome.out) := by
  refine ⟨fun fuel => walk_cycle_none hC fuel t ht, fun fuel => ?_, fun fuel => ?_⟩
  · exact find_target_out_of_walk (walk_cycle_none hC fuel t ht)
  · exact create_out_of_find (find_target_out_of_walk (walk_cycle_none hC fuel t ht))

/-- C2 witness: the amended statement applied to the concrete two-element
cycle of scenario 6. -/
theorem c2_witness :
    InAliasCycle cycReg.aliases ["latest", "model:v3"] ∧
    (∀ fuel, create cycReg [] fuel "latest" [] emptySt = Outcome.out) :=
  ⟨cycReg_cycle,
   (c2_amended cycReg ["latest", "model:v3"] "latest" [] [] emptySt
      cycReg_cycle (by decide)).2.2⟩

/-! ### C3 -/

/-- C3 counterexample: storing a value with no flags from the empty state.
In this run the clock advanced between the disk save's own `now()` draw and
the later `ts := time.time()` draw — which the source's clock permits — so
the persistent entry records timestamp 0 while the store returns timestamp
1: the returned timestamp is not the timestamp recorded on disk, refuting
the single-timestamp claim. -/
theorem c3_counterexample :
    (cache_value emptySt "t" [] [] (PyVal.int 5) []).1 = 1 ∧
    lookupA (mix_target "t" [] []) (cache_value emptySt "t" [] [] (PyVal.int 5) []).2.dsk
      = some (0, PyVal.int 5) ∧
    (1 : Nat) ≠ 0 := by
  refine ⟨rfl, rfl, by decide⟩

/-- C3 amended: `cache_value` writes the persistent entry first, recording
the value under a timestamp drawn by a separate, earlier `now()` call inside
the disk save; only then is `ts := time.time()` drawn, recorded in memory
together with the value (a volatile target instead loses its memory entry),
and returned.  The disk timestamp is at most the returned timestamp and is a
distinct draw, so the returned timestamp does not in general equal the one
recorded on disk. -/
theorem c3_amended (S : St) (target : String) (pnames : List String)
    (params : Params) (value : PyVal) (flags : List String)
    (heph : "ephemeral" ∉ flags) :
    ∃ dts, lookupA (mix_target target pnames params)
        (cache_value S target pnames params value flags).2.dsk
        = some (dts, value) ∧
      dts ≤ (cache_value S target pnames params value flags).1 ∧
      ("volatile" ∉ flags →
        lookupA (mix_target target pnames params)
          (cache_value S target pnames params value flags).2.mem
          = some ((cache_value S target pnames params value flags).1, value)) ∧
      ("volatile" ∈ flags → (S.mem.map Prod.fst).Nodup →
        lookupA (mix_target target pnames params)
          (cache_value S target pnames params value flags).2.mem
          = Option.none) := by
  by_cases hvol : "volatile" ∈ flags
  · refine ⟨S.clock, ?_, ?_, ?_, ?_⟩
    · simp only [cache_value, if_neg heph, if_pos hvol]
      exact lookupA_setA_self _ _ _
    · simp only [cache_value, if_neg heph, if_pos hvol]
      omega
    · intro h
      exact absurd hvol h
    · intro _ hnd
      simp only [cache_value, if_neg heph, if_pos hvol]
      exact lookupA_delA_self hnd
  · refine ⟨S.clock, ?_, ?_, ?_, ?_⟩
    · simp only [cache_value, if_neg heph, if_neg hvol]
      exact lookupA_setA_self _ _ _
    · simp only [cache_value, if_neg heph, if_neg hvol]
      omega
    · intro _
      simp only [cache_value, if_neg heph, if_neg hvol]
      exact lookupA_setA_self _ _ _
    · intro h
      exact absurd h hvol

/-- C3 witness: the amended statement at a concrete store. -/
theorem c3_witness :
    ("ephemeral" ∉ (["volatile"] : List String)) ∧
    ∃ dts, lookupA (mix_target "t" [] [])
        (cache_value c10S1 "t" [] [] (PyVal.int 5) ["volatile"]).2.dsk
        = some (dts, PyVal.int 5) ∧
      dts ≤ (cache_value c10S1 "t" [] [] (PyVal.int 5) ["volatile"]).1 ∧
      ("volatile" ∉ (["volatile"] : List String) →
        lookupA (mix_target "t" [] [])
          (cache_value c10S1 "t" [] [] (PyVal.int 5) ["volatile"]).2.mem
          = some ((cache_value c10S1 "t" [] [] (PyVal.int 5) ["volatile"]).1,
              PyVal.int 5)) ∧
      ("volatile" ∈ (["volatile"] : List String) →
        (c10S1.mem.map Prod.fst).Nodup →
        lookupA (mix_target "t" [] [])
          (cache_value c10S1 "t" [] [] (PyVal.int 5) ["volatile"]).2.mem
          = Option.none) :=
  ⟨by decide, c3_amended c10S1 "t" [] [] (PyVal.int 5) ["volatile"] (by decide)⟩

/-! ### C4 -/

/-- C4 counterexample: a parameter bound to Python `None` and the same
parameter left absent give different restrictions of the parameter map to
the relevant names, yet `mix_target` produces the same full key, because
`params.get(pn, None)` maps both to `None`.  The claim's injectivity
therefore fails. -/
theorem c4_counterexample :
    restrictTo ["p"] [("p", PyVal.none)] ≠ restrictTo ["p"] [] ∧
    mix_target "t" ["p"] [("p", PyVal.none)] = mix_target "t" ["p"] [] := by
  exact ⟨by decide, by decide⟩

/-- C4 amended (the determinism direction): the full target key is a
deterministic function of the target name and the absent-as-None bindings
`pn -> params.get(pn, None)` of the relevant parameters — two parameter maps
that agree under that `get` on every relevant name yield equal keys.  The
injectivity direction of the original claim fails: a parameter bound to
`None` and the same parameter absent yield the same key (the
counterexample), and in the source the lossy `errors="replace"` decode of
the pickle bytes can conflate further distinct bindings, so no converse is
asserted. -/
theorem c4_amended (t : String) (rel : List String) (p1 p2 : Params)
    (h : ∀ pn ∈ rel, p1.getD pn = p2.getD pn) :
    mix_target t rel p1 = mix_target t rel p2 := by
  unfold mix_target params__bytes
  congr 1
  induction rel with
  | nil => rfl
  | cons hd tl ih =>
    simp only [List.map_cons, List.cons.injEq]
    exact ⟨by rw [h hd (List.mem_cons_self _ _)],
      ih (fun pn hpn => h pn (List.mem_cons_of_mem _ hpn))⟩

/-- C4 witness: the amended determinism statement at the concrete pair of
maps from the counterexample, which agree under absent-as-None lookup. -/
theorem c4_witness :
    (∀ pn ∈ (["p"] : List String),
      Params.getD [("p", PyVal.none)] pn = Params.getD [] pn) ∧
    mix_target "t" ["p"] [("p", PyVal.none)] = mix_target "t" ["p"] [] :=
  ⟨by decide, c4_amended "t" ["p"] [("p", PyVal.none)] [] (by decide)⟩

/-! ### C5 -/

/-- C5: evaluation of `gather_relevant_parameters` at the failing input.
The target `t5` declares its parameters as `["b", "a"]` and has no inputs;
the code returns the declaration-order list `["b", "a"]`, not the
lexicographically sorted union `["a", "b"]` the claim (and the function's
own docstring) promises. -/
theorem c5_code_eval :
    gather_relevant_parameters c5Reg 2 "t5" = Outcome.ok ["b", "a"] ∧
    Outcome.ok ["b", "a"] ≠ Outcome.ok ["a", "b"] := by
  exact ⟨rfl, by decide⟩

/-! ### C8 -/

/-- C8: the `iter`/`next` resolution rules of iteration generators, and the
wrapped function receiving `next` as its first argument.  Both captured:
use the captured values; only `next`: `iter` is `next - 1` when positive and
the literal `start` when zero; only `iter`: `next` is `iter + 1`; neither:
`start` and `0`. -/
theorem c8_iter_resolution :
    (∀ i n, iterResolve (some i) (some n) = (IterV.num i, n)) ∧
    (∀ n, iterResolve Option.none (some n) =
      ((if n = 0 then IterV.start else IterV.num (n - 1)), n)) ∧
    (∀ i, iterResolve (some i) Option.none = (IterV.num i, i + 1)) ∧
    (iterResolve Option.none Option.none = (IterV.start, 0)) ∧
    (∀ stuff ival nval args kwargs,
      (iter_gen_target stuff ival nval).fn args kwargs =
        stuff.fn (iterResolve ival nval).2 args kwargs) := by
  refine ⟨fun i n => rfl, fun n => ?_, fun i => rfl, rfl, fun stuff ival nval args kwargs => rfl⟩
  cases n with
  | zero => rfl
  | succ n => simp [iterResolve]

/-! ### C9 -/

/-- C9: the registration validators at the failing input (sequence inputs,
non-sequence params, string output).  `task` accepts it — its second
`isinstance` test re-checks `inputs` although its message speaks about
params — and `iter_task` accepts it because it never inspects `params`;
only `template_task` rejects it as the claim demands. -/
theorem c9_code_eval :
    task_accepts true false true = true ∧
    iter_task_accepts true false true = true ∧
    template_task_accepts true false true = false := by
  decide

/-! ### C10 -/

/-- C10: every full target key carries the requested (pre-alias) name as its
base component; concretely, with alias `a -> t`, `create("a")` caches its
result under the key built from `a` and stores nothing under `t`'s key, and
a subsequent `create("a")` with knockout `{t}` performs no rebuild (no task
function is invoked) and returns the cached pair. -/
theorem c10_keys_by_requested_name :
    (∀ (t : String) (rel : List String) (p : Params), (mix_target t rel p).1 = t) ∧
    create c10Reg [] 3 "a" [] emptySt
      = Outcome.ok ((1, PyVal.int 7), c10S1, ["a"]) ∧
    lookupA ("t", []) c10S1.mem = Option.none ∧
    lookupA ("t", []) c10S1.dsk = Option.none ∧
    gcv c10S1 (mix_target "a" [] []) = some (1, PyVal.int 7) ∧
    create c10Reg [] 3 "a" ["t"] c10S1
      = Outcome.ok ((1, PyVal.int 7), c10S1, []) := by
  exact ⟨fun t rel p => rfl, by decide, by decide, by decide, by decide, by decide⟩

/-! ### C6 -/

/-- A successful freshness check of a knocked-out target always takes the
rebuild branch and hence invokes the target's task function. -/
theorem check_knockout_invokes {R : Registry} {params : Params} {fuel : Nat}
    {t : String} {ko : List String} {S : St} {r : Nat × St × List String}
    (hko : t ∈ ko)
    (h : check_up_to_date R params fuel t ko S = Outcome.ok r) : t ∈ r.2.2 := by
  cases fuel with
  | zero => exact absurd h (by simp [check_up_to_date])
  | succ fuel =>
    simp only [check_up_to_date] at h
    split at h
    case h_2 => exact absurd h (by simp)
    case h_3 => exact absurd h (by simp)
    case h_1 d hd =>
    split at h
    case h_2 => exact absurd h (by simp)
    case h_3 => exact absurd h (by simp)
    case h_1 rel hrel =>
    split at h
    case h_2 => exact absurd h (by simp)
    case h_3 => exact absurd h (by simp)
    case h_1 times S1 iv htr =>
    split at h
    case h_2 => exact absurd h (by simp)
    case h_3 => exact absurd h (by simp)
    case h_1 subp hsubp =>
    simp only [if_pos hko] at h
    split at h
    case h_1 hload => exact absurd h (by simp)
    case h_2 ivalues hload =>
    simp only [Outcome.ok.injEq] at h
    subst h
    simp

/-- C6: for a knocked-out target, a completed `create(t, params, knockout)`
has invoked `t`'s task function: the cached timestamp is ignored (`myts`
is treated as absent) and the rebuild branch is taken. -/
theorem c6_knockout_invokes (R : Registry) (params : Params) (fuel : Nat)
    (t : String) (ko : List String) (S : St) (r : (Nat × PyVal) × St × List String)
    (hko : t ∈ ko) (h : create R params fuel t ko S = Outcome.ok r) :
    t ∈ r.2.2 := by
  simp only [create] at h
  split at h
  case h_2 => exact absurd h (by simp)
  case h_3 => exact absurd h (by simp)
  case h_1 ts S1 iv hchk =>
  split at h
  case h_2 => exact absurd h (by simp)
  case h_3 => exact absurd h (by simp)
  case h_1 rel hrel =>
  split at h
  case h_2 => exact absurd h (by simp)
  case h_1 p hp =>
  simp only [Outcome.ok.injEq] at h
  subst h
  exact check_knockout_invokes hko hchk

/-- C6 witness: knocking out `t` itself forces its function to run even
though a fresh cached value exists. -/
theorem c6_witness :
    ("t" ∈ (["t"] : List String)) ∧
    "t" ∈ (((3, PyVal.int 7),
            ({ mem := [(("t", []), (3, PyVal.int 7))],
               dsk := [(("t", []), (2, PyVal.int 7))],
               clock := 4 } : St), ["t"]) : (Nat × PyVal) × St × List String).2.2 :=
  ⟨by decide,
   c6_knockout_invokes w1Reg [] 2 "t" ["t"] w7St _ (by decide) (by decide)⟩

/-! ### Fuel monotonicity -/

theorem walk_mono {al : List (String × String)} :
    ∀ {f f' : Nat} {t x : String}, walkAliases f al t = some x → f ≤ f' →
      walkAliases f' al t = some x := by
  intro f
  induction f with
  | zero => intro f' t x h; simp [walkAliases] at h
  | succ f ih =>
    intro f' t x h hle
    rcases f' with _ | f'
    · exact absurd hle (by omega)
    · simp only [walkAliases] at h ⊢
      rcases hlk : lookupA t al with _ | t2
      · simp only [hlk] at h ⊢; exact h
      · simp only [hlk] at h ⊢
        exact ih h (by omega)

theorem find_mono {R : Registry} {f f' : Nat} {t : String}
    (hle : f ≤ f') (h : find_target f R t ≠ Outcome.out) :
    find_target f' R t = find_target f R t := by
  rcases hw : walkAliases f R.aliases t with _ | t2
  · exact absurd (by simp [find_target, hw]) h
  · simp [find_target, hw, walk_mono hw hle]

theorem find_det {R : Registry} {f f' : Nat} {t : String} {d d' : Descr}
    (h : find_target f R t = Outcome.ok d) (h' : find_target f' R t = Outcome.ok d') :
    d = d' := by
  rcases Nat.le_total f f' with hle | hle
  · have := find_mono hle (h ▸ (by simp : (Outcome.ok d : Outcome Descr) ≠ Outcome.out))
    rw [this, h] at h'
    exact (Outcome.ok.injEq _ _).mp h'
  · have := find_mono hle (h' ▸ (by simp : (Outcome.ok d' : Outcome Descr) ≠ Outcome.out))
    rw [this, h'] at h
    exact ((Outcome.ok.injEq _ _).mp h).symm

theorem gatherFoldF_congr {g g' : String → Outcome (List String)} :
    ∀ {l : List String} {rv : List String},
      (∀ x ∈ l, g x ≠ Outcome.out → g' x = g x) →
      gatherFoldF g l rv ≠ Outcome.out →
      gatherFoldF g' l rv = gatherFoldF g l rv := by
  intro l
  induction l with
  | nil => intro rv _ _; rfl
  | cons inp rest ih =>
    intro rv hcong hout
    rcases hg : g inp with sub | e | _
    · have hg' : g' inp = Outcome.ok sub :=
        hg ▸ hcong inp (List.mem_cons_self _ _) (hg ▸ (by simp))
      simp only [gatherFoldF, hg, hg'] at hout ⊢
      exact ih (fun x hx => hcong x (List.mem_cons_of_mem _ hx)) hout
    · have hg' : g' inp = Outcome.err e :=
        hg ▸ hcong inp (List.mem_cons_self _ _) (hg ▸ (by simp))
      simp only [gatherFoldF, hg, hg']
    · exact absurd (by simp [gatherFoldF, hg]) hout

theorem gather_mono {R : Registry} :
    ∀ {f f' : Nat} {t : String}, f ≤ f' →
      gather_relevant_parameters R f t ≠ Outcome.out →
      gather_relevant_parameters R f' t = gather_relevant_parameters R f t := by
  intro f
  induction f with
  | zero => intro f' t _ hout; exact absurd rfl hout
  | succ f ih =>
    intro f' t hle hout
    rcases f' with _ | f'
    · exact absurd hle (by omega)
    · rcases hf : find_target (f + 1) R t with d | e | _
      · have hf' : find_target (f' + 1) R t = Outcome.ok d := by
          rw [find_mono (by omega : f + 1 ≤ f' + 1) (hf ▸ (by simp)), hf]
        simp only [gather_relevant_parameters, hf, hf'] at hout ⊢
        exact gatherFoldF_congr
          (fun x _ hx => ih (by omega) hx) hout
      · have hf' : find_target (f' + 1) R t = Outcome.err e := by
          rw [find_mono (by omega : f + 1 ≤ f' + 1) (hf ▸ (by simp)), hf]
        simp [gather_relevant_parameters, hf, hf']
      · exact absurd (by simp [gather_relevant_parameters, hf]) hout

theorem gather_det {R : Registry} {f f' : Nat} {t : String} {rel rel' : List String}
    (h : gather_relevant_parameters R f t = Outcome.ok rel)
    (h' : gather_relevant_parameters R f' t = Outcome.ok rel') : rel = rel' := by
  rcases Nat.le_total f f' with hle | hle
  · have := gather_mono hle (h ▸ (by simp : (Outcome.ok rel : Outcome (List String)) ≠ Outcome.out))
    rw [this, h] at h'
    exact (Outcome.ok.injEq _ _).mp h'
  · have := gather_mono hle (h' ▸ (by simp : (Outcome.ok rel' : Outcome (List String)) ≠ Outcome.out))
    rw [this, h'] at h
    exact ((Outcome.ok.injEq _ _).mp h).symm

theorem gatherEach_mono {R : Registry} {f f' : Nat} (hle : f ≤ f') :
    ∀ {l : List String}, gatherEach R f l ≠ Outcome.out →
      gatherEach R f' l = gatherEach R f l := by
  intro l
  induction l with
  | nil => intro _; rfl
  | cons hd tl ih =>
    intro hout
    rcases hg : gather_relevant_parameters R f hd with rel | e | _
    · have hg' : gather_relevant_parameters R f' hd = Outcome.ok rel := by
        rw [gather_mono hle (hg ▸ (by simp)), hg]
      rcases he : gatherEach R f tl with rels | e | _
      · have he' := ih (he ▸ (by simp))
        simp only [gatherEach, hg, hg', he, he']
      · have he' := ih (he ▸ (by simp))
        simp only [gatherEach, hg, hg', he, he']
      · exact absurd (by simp [gatherEach, hg, he]) hout
    · have hg' : gather_relevant_parameters R f' hd = Outcome.err e := by
        rw [gather_mono hle (hg ▸ (by simp)), hg]
      simp only [gatherEach, hg, hg']
    · exact absurd (by simp [gatherEach, hg]) hout

/-! ### cache_value effects -/

theorem cv_fields (S : St) (t : String) (rel : List String) (params : Params)
    (v : PyVal) (flags : List String) :
    (cache_value S t rel params v flags).1
      = (if "ephemeral" ∈ flags then S.clock else S.clock + 1) ∧
    (cache_value S t rel params v flags).2.clock
      = (cache_value S t rel params v flags).1 + 1 ∧
    (cache_value S t rel params v flags).2.dsk
      = (if "ephemeral" ∈ flags then S.dsk
         else setA (mix_target t rel params) (S.clock, v) S.dsk) ∧
    (cache_value S t rel params v flags).2.mem
      = (if "volatile" ∈ flags
         then delA (mix_target t rel params) S.mem
         else setA (mix_target t rel params)
                ((cache_value S t rel params v flags).1, v) S.mem) := by
  by_cases heph : "ephemeral" ∈ flags <;> by_cases hvol : "volatile" ∈ flags <;>
    simp [cache_value, heph, hvol]

theorem cv_ts_ge (S : St) (t : String) (rel : List String) (params : Params)
    (v : PyVal) (flags : List String) :
    S.clock ≤ (cache_value S t rel params v flags).1 := by
  rcases cv_fields S t rel params v flags with ⟨h1, _, _, _⟩
  rw [h1]
  split <;> omega

theorem cv_clock_gt (S : St) (t : String) (rel : List String) (params : Params)
    (v : PyVal) (flags : List String) :
    S.clock < (cache_value S t rel params v flags).2.clock := by
  rcases cv_fields S t rel params v flags with ⟨h1, h2, _, _⟩
  have := cv_ts_ge S t rel params v flags
  omega

theorem cv_ts_lt_clock (S : St) (t : String) (rel : List String) (params : Params)
    (v : PyVal) (flags : List String) :
    (cache_value S t rel params v flags).1 < (cache_value S t rel params v flags).2.clock := by
  rcases cv_fields S t rel params v flags with ⟨_, h2, _, _⟩
  omega

theorem cv_gct_ne {S : St} {t : String} {rel : List String} {params : Params}
    {v : PyVal} {flags : List String} {k : Key}
    (hk : k ≠ mix_target t rel params) :
    gct (cache_value S t rel params v flags).2 k = gct S k := by
  rcases cv_fields S t rel params v flags with ⟨_, _, h3, h4⟩
  unfold gct
  rw [h3, h4]
  by_cases heph : "ephemeral" ∈ flags <;> by_cases hvol : "volatile" ∈ flags <;>
    simp only [if_pos, if_neg, heph, hvol, if_true, if_false,
      lookupA_setA_ne _ hk, lookupA_delA_ne hk]

theorem cv_gcv_ne {S : St} {t : String} {rel : List String} {params : Params}
    {v : PyVal} {flags : List String} {k : Key}
    (hk : k ≠ mix_target t rel params) :
    gcv (cache_value S t rel params v flags).2 k = gcv S k := by
  rcases cv_fields S t rel params v flags with ⟨_, _, h3, h4⟩
  unfold gcv
  rw [h3, h4]
  by_cases heph : "ephemeral" ∈ flags <;> by_cases hvol : "volatile" ∈ flags <;>
    simp only [if_pos, if_neg, heph, hvol, if_true, if_false,
      lookupA_setA_ne _ hk, lookupA_delA_ne hk]

/-! ### Structure of a successful check -/

/-- Destructor for a successful `check_up_to_date` at positive fuel: the
resolution and gathering steps succeeded, the inputs were checked, and the
run either found the target fresh (returning the cached time unchanged) or
took the rebuild branch (invoking the function and caching the result). -/
theorem check_succ_ok {R : Registry} {params : Params} {fuel : Nat} {t : String}
    {ko : List String} {S : St} {ts : Nat} {S' : St} {iv : List String}
    (h : check_up_to_date R params (fuel + 1) t ko S = Outcome.ok (ts, S', iv)) :
    ∃ d rel times S1 iv1 subp,
      find_target (fuel + 1) R t = Outcome.ok d ∧
      gather_relevant_parameters R (fuel + 1) t = Outcome.ok rel ∧
      checkList (fun inp S0 => check_up_to_date R params fuel inp ko S0) d.inputs S
        = Outcome.ok (times, S1, iv1) ∧
      gatherEach R fuel d.inputs = Outcome.ok subp ∧
      ((t ∉ ko ∧ ∃ m, gct S1 (mix_target t rel params) = some m ∧
          times.any (fun x => decide (m < x)) = false ∧ ts = m ∧ S' = S1 ∧ iv = iv1) ∨
       (∃ ivalues, loadInputs S1 params d.inputs subp = some ivalues ∧
          ts = (cache_value S1 t rel params
                  (d.fn ivalues (pvaluesOf d.pnames params)) d.flags).1 ∧
          S' = (cache_value S1 t rel params
                  (d.fn ivalues (pvaluesOf d.pnames params)) d.flags).2 ∧
          iv = iv1 ++ [t] ∧
          (t ∈ ko ∨ gct S1 (mix_target t rel params) = Option.none ∨
           ∃ m, gct S1 (mix_target t rel params) = some m ∧
             times.any (fun x => decide (m < x)) = true))) := by
  simp only [check_up_to_date] at h
  split at h
  case h_2 => exact absurd h (by simp)
  case h_3 => exact absurd h (by simp)
  case h_1 d hd =>
  split at h
  case h_2 => exact absurd h (by simp)
  case h_3 => exact absurd h (by simp)
  case h_1 rel hrel =>
  split at h
  case h_2 => exact absurd h (by simp)
  case h_3 => exact absurd h (by simp)
  case h_1 times S1 iv1 htr =>
  split at h
  case h_2 => exact absurd h (by simp)
  case h_3 => exact absurd h (by simp)
  case h_1 subp hsubp =>
  refine ⟨d, rel, times, S1, iv1, subp, hd, hrel, htr, hsubp, ?_⟩
  split at h
  next hmy =>
    split at h
    next hload => exact absurd h (by simp)
    next ivalues hload =>
      simp only [Outcome.ok.injEq] at h
      refine Or.inr ⟨ivalues, hload,
        (congrArg (fun x => x.1) h).symm,
        (congrArg (fun x => x.2.1) h).symm,
        (congrArg (fun x => x.2.2) h).symm, ?_⟩
      by_cases hko : t ∈ ko
      · exact Or.inl hko
      · rw [if_neg hko] at hmy
        exact Or.inr (Or.inl hmy)
  next m hmy =>
    have hko : t ∉ ko := by
      intro hk
      rw [if_pos hk] at hmy
      cases hmy
    rw [if_neg hko] at hmy
    split at h
    next hany =>
      split at h
      next hload => exact absurd h (by simp)
      next ivalues hload =>
        simp only [Outcome.ok.injEq] at h
        exact Or.inr ⟨ivalues, hload,
          (congrArg (fun x => x.1) h).symm,
          (congrArg (fun x => x.2.1) h).symm,
          (congrArg (fun x => x.2.2) h).symm,
          Or.inr (Or.inr ⟨m, hmy, hany⟩)⟩
    next hany =>
      simp only [Outcome.ok.injEq] at h
      refine Or.inl ⟨hko, m, hmy, ?_,
        (congrArg (fun x => x.1) h).symm,
        (congrArg (fun x => x.2.1) h).symm,
        (congrArg (fun x => x.2.2) h).symm⟩
      simpa using hany

/-- Constructor for the fresh (no-rebuild) branch of `check_up_to_date`. -/
theorem check_noRebuild_intro {R : Registry} {params : Params} {fuel : Nat}
    {t : String} {ko : List String} {S : St} {d : Descr} {rel : List String}
    {times : List Nat} {S1 : St} {iv1 : List String} {subp : List (List String)}
    {m : Nat}
    (hd : find_target (fuel + 1) R t = Outcome.ok d)
    (hrel : gather_relevant_parameters R (fuel + 1) t = Outcome.ok rel)
    (htr : checkList (fun inp S0 => check_up_to_date R params fuel inp ko S0) d.inputs S
      = Outcome.ok (times, S1, iv1))
    (hsubp : gatherEach R fuel d.inputs = Outcome.ok subp)
    (hko : t ∉ ko)
    (hm : gct S1 (mix_target t rel params) = some m)
    (hany : times.any (fun x => decide (m < x)) = false) :
    check_up_to_date R params (fuel + 1) t ko S = Outcome.ok (m, S1, iv1) := by
  simp [check_up_to_date, hd, hrel, htr, hsubp, if_neg hko, hm, hany]

/-- Constructor for the rebuild branch of `check_up_to_date`. -/
theorem check_rebuild_intro {R : Registry} {params : Params} {fuel : Nat}
    {t : String} {ko : List String} {S : St} {d : Descr} {rel : List String}
    {times : List Nat} {S1 : St} {iv1 : List String} {subp : List (List String)}
    {ivalues : List PyVal}
    (hd : find_target (fuel + 1) R t = Outcome.ok d)
    (hrel : gather_relevant_parameters R (fuel + 1) t = Outcome.ok rel)
    (htr : checkList (fun inp S0 => check_up_to_date R params fuel inp ko S0) d.inputs S
      = Outcome.ok (times, S1, iv1))
    (hsubp : gatherEach R fuel d.inputs = Outcome.ok subp)
    (hcond : t ∈ ko ∨ gct S1 (mix_target t rel params) = Option.none ∨
      ∃ m, gct S1 (mix_target t rel params) = some m ∧
        times.any (fun x => decide (m < x)) = true)
    (hload : loadInputs S1 params d.inputs subp = some ivalues) :
    check_up_to_date R params (fuel + 1) t ko S
      = Outcome.ok ((cache_value S1 t rel params
            (d.fn ivalues (pvaluesOf d.pnames params)) d.flags).1,
          (cache_value S1 t rel params
            (d.fn ivalues (pvaluesOf d.pnames params)) d.flags).2,
          iv1 ++ [t]) := by
  rcases hcond with hko | hnone | ⟨m, hm, hany⟩
  · simp only [check_up_to_date, hd, hrel, htr, hsubp, if_pos hko, hload]
  · by_cases hko : t ∈ ko
    · simp only [check_up_to_date, hd, hrel, htr, hsubp, if_pos hko, hload]
    · simp only [check_up_to_date, hd, hrel, htr, hsubp, if_neg hko, hnone, hload]
  · by_cases hko : t ∈ ko
    · simp only [check_up_to_date, hd, hrel, htr, hsubp, if_pos hko, hload]
    · simp only [check_up_to_date, hd, hrel, htr, hsubp, if_neg hko, hm, hany,
        if_true, hload]

/-! ### Clock lemmas -/

theorem checkList_clock {f : String → St → Outcome (Nat × St × List String)}
    (hf : ∀ i S r, f i S = Outcome.ok r → S.clock ≤ r.2.1.clock) :
    ∀ {l : List String} {S : St} {r : List Nat × St × List String},
      checkList f l S = Outcome.ok r → S.clock ≤ r.2.1.clock := by
  intro l
  induction l with
  | nil =>
    intro S r h
    simp only [checkList, Outcome.ok.injEq] at h
    rw [← h]
  | cons inp rest ih =>
    intro S r h
    simp only [checkList] at h
    split at h
    case h_2 => exact absurd h (by simp)
    case h_3 => exact absurd h (by simp)
    case h_1 ts0 Sa iva hf0 =>
    split at h
    case h_2 => exact absurd h (by simp)
    case h_3 => exact absurd h (by simp)
    case h_1 times Sb ivb hrest =>
    simp only [Outcome.ok.injEq] at h
    have h1 := hf _ _ _ hf0
    have h2 := ih hrest
    rw [← h]
    exact le_trans h1 h2

theorem check_clock_mono {R : Registry} {params : Params} :
    ∀ {fuel : Nat} {t : String} {ko : List String} {S : St}
      {r : Nat × St × List String},
      check_up_to_date R params fuel t ko S = Outcome.ok r → S.clock ≤ r.2.1.clock := by
  intro fuel
  induction fuel with
  | zero => intro t ko S r h; exact absurd h (by simp [check_up_to_date])
  | succ fuel ih =>
    intro t ko S r h
    rcases r with ⟨ts, S', iv⟩
    rcases check_succ_ok h with
      ⟨d, rel, times, S1, iv1, subp, hd, hrel, htr, hsubp, hbr⟩
    have hcl : S.clock ≤ S1.clock :=
      checkList_clock (fun i S0 r0 h0 => ih h0) htr
    rcases hbr with ⟨_, m, _, _, _, hS, _⟩ | ⟨ivalues, _, _, hS, _, _⟩
    · rw [hS]; exact hcl
    · rw [hS]
      exact le_trans hcl (le_of_lt (cv_clock_gt _ _ _ _ _ _))

/-- A run that does not advance the clock rebuilt nothing: it leaves the
state unchanged, invokes nothing, and every input was checked at the
unchanged state. -/
theorem check_clock_eq_noop {R : Registry} {params : Params} :
    ∀ {fuel : Nat} {t : String} {ko : List String} {S : St} {ts : Nat}
      {S' : St} {iv : List String},
      check_up_to_date R params fuel t ko S = Outcome.ok (ts, S', iv) →
      S'.clock = S.clock → S' = S ∧ iv = [] := by
  intro fuel
  induction fuel with
  | zero => intro t ko S ts S' iv h _; exact absurd h (by simp [check_up_to_date])
  | succ fuel ih =>
    intro t ko S ts S' iv h hclk
    rcases check_succ_ok h with
      ⟨d, rel, times, S1, iv1, subp, hd, hrel, htr, hsubp, hbr⟩
    have hlist : ∀ (l : List String) (S0 : St) (times0 : List Nat) (S2 : St)
          (iv0 : List String),
          checkList (fun inp Sx => check_up_to_date R params fuel inp ko Sx) l S0
            = Outcome.ok (times0, S2, iv0) → S2.clock = S0.clock →
          S2 = S0 ∧ iv0 = [] := by
        intro l
        induction l with
        | nil =>
          intro S0 times0 S2 iv0 hc hc2
          simp only [checkList, Outcome.ok.injEq, Prod.mk.injEq] at hc
          exact ⟨hc.2.1.symm, hc.2.2.symm⟩
        | cons inp rest ihl =>
          intro S0 times0 S2 iv0 hc hc2
          simp only [checkList] at hc
          split at hc
          case h_2 => exact absurd hc (by simp)
          case h_3 => exact absurd hc (by simp)
          case h_1 ts0 Sa iva hf0 =>
          split at hc
          case h_2 => exact absurd hc (by simp)
          case h_3 => exact absurd hc (by simp)
          case h_1 times1 Sb ivb hrest =>
          simp only [Outcome.ok.injEq] at hc
          have hSb : Sb = S2 := congrArg (fun x => x.2.1) hc
          have hivs : iva ++ ivb = iv0 := congrArg (fun x => x.2.2) hc
          have hm1 : S0.clock ≤ Sa.clock := check_clock_mono hf0
          have hm2 : Sa.clock ≤ Sb.clock := checkList_clock
            (fun i Sx rx hx => check_clock_mono hx) hrest
          have hSaclk : Sa.clock = S0.clock := by
            rw [hSb] at hm2
            omega
          have h1 := ih hf0 hSaclk
          rcases h1 with ⟨rfl, rfl⟩
          have h2 := ihl _ _ _ _ hrest (by rw [hSb]; exact hc2)
          rcases h2 with ⟨hSb2, rfl⟩
          constructor
          · rw [← hSb, hSb2]
          · rw [← hivs]
            rfl
    rcases hbr with ⟨_, m, _, _, _, hS, hiv⟩ | ⟨ivalues, _, _, hS, hiv, _⟩
    · have hclk1 : S1.clock = S.clock := by rw [hS] at hclk; exact hclk
      have hmain := hlist d.inputs S times S1 iv1 htr hclk1
      exact ⟨by rw [hS]; exact hmain.1, by rw [hiv]; exact hmain.2⟩
    · -- rebuild is impossible: the clock strictly advances
      exfalso
      have h1 : S.clock ≤ S1.clock :=
        checkList_clock (fun i Sx rx hx => check_clock_mono hx) htr
      have h2 := cv_clock_gt S1 t rel params
        (d.fn ivalues (pvaluesOf d.pnames params)) d.flags
      rw [hS] at hclk
      omega

/-! ### No-op runs: decomposition and composition -/

theorem checkList_noop_decomp {f : String → St → Outcome (Nat × St × List String)}
    (hmono : ∀ i S r, f i S = Outcome.ok r → S.clock ≤ r.2.1.clock)
    (hnoop : ∀ i S ts S2 iv, f i S = Outcome.ok (ts, S2, iv) → S2.clock = S.clock →
      S2 = S ∧ iv = []) :
    ∀ {l : List String} {S : St} {times : List Nat},
      checkList f l S = Outcome.ok (times, S, []) →
      List.Forall₂ (fun i ts => f i S = Outcome.ok (ts, S, [])) l times := by
  intro l
  induction l with
  | nil =>
    intro S times h
    simp only [checkList, Outcome.ok.injEq, Prod.mk.injEq] at h
    rw [← h.1]
    exact List.Forall₂.nil
  | cons inp rest ih =>
    intro S times h
    simp only [checkList] at h
    split at h
    case h_2 => exact absurd h (by simp)
    case h_3 => exact absurd h (by simp)
    case h_1 ts0 Sa iva hf0 =>
    split at h
    case h_2 => exact absurd h (by simp)
    case h_3 => exact absurd h (by simp)
    case h_1 times1 Sb ivb hrest =>
    simp only [Outcome.ok.injEq, Prod.mk.injEq] at h
    obtain ⟨htimes, hSb, hivs⟩ := h
    have hm1 : S.clock ≤ Sa.clock := hmono _ _ _ hf0
    have hm2 : Sa.clock ≤ Sb.clock := checkList_clock hmono hrest
    have hSaclk : Sa.clock = S.clock := by
      rw [hSb] at hm2
      omega
    obtain ⟨rfl, rfl⟩ := hnoop _ _ _ _ _ hf0 hSaclk
    have hivb : ivb = [] := by
      rcases List.append_eq_nil.mp hivs with ⟨_, h2⟩
      exact h2
    rw [← htimes]
    refine List.Forall₂.cons hf0 (ih ?_)
    rw [hSb, hivb] at hrest
    exact hrest

theorem checkList_noop_comp {f : String → St → Outcome (Nat × St × List String)} :
    ∀ {l : List String} {times : List Nat} {S : St},
      List.Forall₂ (fun i ts => f i S = Outcome.ok (ts, S, [])) l times →
      checkList f l S = Outcome.ok (times, S, []) := by
  intro l times S h
  induction h with
  | nil => rfl
  | cons h1 h2 ih =>
    simp only [checkList, h1, ih]
    rfl

/-! ### The Fresh predicate: destruction and construction -/

theorem fresh_pos {R : Registry} {params : Params} {u : String} {S : St} {m : Nat}
    (h : Fresh R params 0 u S m) : False := by
  simp [Fresh, check_up_to_date] at h

theorem fresh_destruct {R : Registry} {params : Params} {g : Nat} {u : String}
    {S : St} {m : Nat} (h : Fresh R params (g + 1) u S m) :
    ∃ d rel subp times,
      find_target (g + 1) R u = Outcome.ok d ∧
      gather_relevant_parameters R (g + 1) u = Outcome.ok rel ∧
      gatherEach R g d.inputs = Outcome.ok subp ∧
      gct S (mix_target u rel params) = some m ∧
      List.Forall₂ (fun i ts => Fresh R params g i S ts) d.inputs times ∧
      times.any (fun x => decide (m < x)) = false := by
  rcases check_succ_ok h with
    ⟨d, rel, times, S1, iv1, subp, hd, hrel, htr, hsubp, hbr⟩
  rcases hbr with ⟨_, m0, hm0, hany, hts, hS, hiv⟩ | ⟨ivalues, _, _, hS, _, _⟩
  · rcases hts with rfl
    rcases hS.symm with rfl
    rcases hiv.symm with rfl
    refine ⟨d, rel, subp, times, hd, hrel, hsubp, hm0, ?_, hany⟩
    exact checkList_noop_decomp
      (fun i S0 r0 h0 => check_clock_mono h0)
      (fun i S0 ts0 S2 iv0 h0 hc0 => check_clock_eq_noop h0 hc0) htr
  · exfalso
    have h1 : S.clock ≤ S1.clock :=
      checkList_clock (fun i S0 r0 h0 => check_clock_mono h0) htr
    have h2 := cv_clock_gt S1 u rel params
      (d.fn ivalues (pvaluesOf d.pnames params)) d.flags
    have h3 : S = (cache_value S1 u rel params
      (d.fn ivalues (pvaluesOf d.pnames params)) d.flags).2 := hS
    have h4 := congrArg St.clock h3
    omega

theorem fresh_mk {R : Registry} {params : Params} {g : Nat} {u : String}
    {S : St} {m : Nat} {d : Descr} {rel : List String}
    {subp : List (List String)} {times : List Nat}
    (hd : find_target (g + 1) R u = Outcome.ok d)
    (hrel : gather_relevant_parameters R (g + 1) u = Outcome.ok rel)
    (hsubp : gatherEach R g d.inputs = Outcome.ok subp)
    (hm : gct S (mix_target u rel params) = some m)
    (hin : List.Forall₂ (fun i ts => Fresh R params g i S ts) d.inputs times)
    (hany : times.any (fun x => decide (m < x)) = false) :
    Fresh R params (g + 1) u S m := by
  unfold Fresh
  exact check_noRebuild_intro hd hrel (checkList_noop_comp hin) hsubp
    (by simp) hm hany

theorem fresh_unique {R : Registry} {params : Params} {g g' : Nat} {u : String}
    {S : St} {m m' : Nat} (h : Fresh R params g u S m)
    (h' : Fresh R params g' u S m') : m = m' := by
  rcases g with _ | g
  · exact absurd h fresh_pos
  rcases g' with _ | g'
  · exact absurd h' fresh_pos
  rcases fresh_destruct h with ⟨d, rel, subp, times, hd, hrel, _, hm, _, _⟩
  rcases fresh_destruct h' with ⟨d', rel', subp', times', hd', hrel', _, hm', _, _⟩
  have : rel = rel' := gather_det hrel hrel'
  rw [this] at hm
  rw [hm] at hm'
  exact (Option.some.injEq _ _).mp hm'

theorem forall2_imp_mem {α β : Type} {l : List α} {l2 : List β}
    {P Q : α → β → Prop} (h : List.Forall₂ P l l2)
    (himp : ∀ a ∈ l, ∀ b, P a b → Q a b) : List.Forall₂ Q l l2 := by
  induction h with
  | nil => exact List.Forall₂.nil
  | cons h1 h2 ih =>
    refine List.Forall₂.cons (himp _ (List.mem_cons_self _ _) _ h1) (ih ?_)
    intro a ha b hb
    exact himp a (List.mem_cons_of_mem _ ha) b hb

theorem forall2_mem_right {α β : Type} {l : List α} {l2 : List β}
    {P : α → β → Prop} (h : List.Forall₂ P l l2) {b : β} (hb : b ∈ l2) :
    ∃ a ∈ l, P a b := by
  induction h with
  | nil => cases hb
  | cons h1 h2 ih =>
    rcases List.mem_cons.mp hb with rfl | hb2
    · exact ⟨_, List.mem_cons_self _ _, h1⟩
    · rcases ih hb2 with ⟨a, ha, hP⟩
      exact ⟨a, List.mem_cons_of_mem _ ha, hP⟩

/-- A fresh target stays fresh in any state that agrees with the original
on the cache times of every name its dependency tree reaches. -/
theorem fresh_transfer {R : Registry} {params : Params} :
    ∀ {g : Nat} {u : String} {S S2 : St} {m : Nat},
      Fresh R params g u S m →
      (∀ w rel, Reaches R u w →
        gct S2 (mix_target w rel params) = gct S (mix_target w rel params)) →
      Fresh R params g u S2 m := by
  intro g
  induction g with
  | zero => intro u S S2 m h _; exact absurd h fresh_pos
  | succ g ih =>
    intro u S S2 m h hagree
    rcases fresh_destruct h with ⟨d, rel, subp, times, hd, hrel, hsubp, hm, hin, hany⟩
    refine fresh_mk hd hrel hsubp ?_ ?_ hany
    · rw [hagree u rel (Reaches.refl u)]
      exact hm
    · refine forall2_imp_mem hin ?_
      intro i hi ts hF
      refine ih hF ?_
      intro w rel2 hrw
      exact hagree w rel2 (Reaches.step hd hi hrw)

/-! ### Cycles in the dependency graph never complete a check -/

theorem checkList_member {f : String → St → Outcome (Nat × St × List String)} :
    ∀ {l : List String} {S : St} {r : List Nat × St × List String},
      checkList f l S = Outcome.ok r → ∀ i ∈ l, ∃ S0 r0, f i S0 = Outcome.ok r0 := by
  intro l
  induction l with
  | nil => intro S r _ i hi; cases hi
  | cons inp rest ih =>
    intro S r h i hi
    simp only [checkList] at h
    split at h
    case h_2 => exact absurd h (by simp)
    case h_3 => exact absurd h (by simp)
    case h_1 ts0 Sa iva hf0 =>
    split at h
    case h_2 => exact absurd h (by simp)
    case h_3 => exact absurd h (by simp)
    case h_1 times1 Sb ivb hrest =>
    rcases List.mem_cons.mp hi with rfl | hi2
    · exact ⟨S, _, hf0⟩
    · exact ih hrest i hi2

theorem reaches_check {R : Registry} {params : Params} {u w : String}
    (hr : Reaches R u w) :
    ∀ {f : Nat} {ko : List String} {S : St} {r : Nat × St × List String},
      check_up_to_date R params f u ko S = Outcome.ok r →
      ∃ f' ≤ f, ∃ S0 r0, check_up_to_date R params f' w ko S0 = Outcome.ok r0 := by
  induction hr with
  | refl t =>
    intro f ko S r h
    exact ⟨f, le_refl f, S, r, h⟩
  | step hfind hmem hsub ih =>
    intro f ko S r h
    rcases f with _ | fz
    · exact absurd h (by simp [check_up_to_date])
    rcases check_succ_ok h with
      ⟨d2, rel, times, S1, iv1, subp, hd2, hrel, htr, hsubp, _⟩
    have hdd : d2 = _ := find_det hd2 hfind
    rcases checkList_member htr _ (hdd ▸ hmem) with ⟨S0, r0, h0⟩
    rcases ih h0 with ⟨f', hle, S3, r3, h3⟩
    exact ⟨f', by omega, S3, r3, h3⟩

/-- A target that reaches itself through a nonempty input chain never
completes a freshness check: the recursion consumes fuel on every lap. -/
theorem check_no_ok_of_cycle {R : Registry} {params : Params} {t : String}
    {fd : Nat} {d : Descr} {i : String}
    (hd : find_target fd R t = Outcome.ok d) (hi : i ∈ d.inputs)
    (hr : Reaches R i t) :
    ∀ (f : Nat) {ko : List String} {S : St} {r : Nat × St × List String},
      check_up_to_date R params f t ko S ≠ Outcome.ok r := by
  intro f
  induction f using Nat.strong_induction_on with
  | _ f IH =>
    intro ko S r h
    rcases f with _ | fz
    · exact absurd h (by simp [check_up_to_date])
    rcases check_succ_ok h with
      ⟨d2, rel, times, S1, iv1, subp, hd2, hrel, htr, hsubp, _⟩
    have hdd : d2 = d := find_det hd2 hd
    rcases checkList_member htr _ (hdd ▸ hi : i ∈ d2.inputs) with ⟨S0, r0, h0⟩
    rcases reaches_check hr h0 with ⟨f', hle, S3, r3, h3⟩
    exact IH f' (by omega) h3

theorem forall2_mem_left {α β : Type} {l : List α} {l2 : List β}
    {P : α → β → Prop} (h : List.Forall₂ P l l2) {a : α} (ha : a ∈ l) :
    ∃ b ∈ l2, P a b := by
  induction h with
  | nil => cases ha
  | cons h1 h2 ih =>
    rcases List.mem_cons.mp ha with rfl | ha2
    · exact ⟨_, List.mem_cons_self _ _, h1⟩
    · rcases ih ha2 with ⟨b, hb, hP⟩
      exact ⟨b, List.mem_cons_of_mem _ hb, hP⟩

/-- Every name reached by a fresh target is itself fresh. -/
theorem fresh_sub {R : Registry} {params : Params} {u w : String}
    (hr : Reaches R u w) :
    ∀ {g : Nat} {S : St} {m : Nat}, Fresh R params g u S m →
      ∃ g' ≤ g, ∃ m', Fresh R params g' w S m' := by
  induction hr with
  | refl t =>
    intro g S m h
    exact ⟨g, le_refl g, m, h⟩
  | step hfind hmem hsub ih =>
    intro g S m h
    rcases g with _ | g0
    · exact absurd h fresh_pos
    rcases fresh_destruct h with ⟨d2, rel, subp, times, hd2, hrel, hsubp, hm, hin, hany⟩
    have hdd : d2 = _ := find_det hd2 hfind
    rcases forall2_mem_left hin (hdd ▸ hmem) with ⟨tsb, _, hFb⟩
    rcases ih hFb with ⟨g', hle, m', hF'⟩
    exact ⟨g', by omega, m', hF'⟩

/-! ### Invariant preservation through cache_value -/

theorem lookupA_setA {α β : Type} [DecidableEq α] (k k0 : α) (v : β)
    (l : List (α × β)) :
    lookupA k (setA k0 v l) = if k0 = k then some v else lookupA k l := by
  by_cases h : k0 = k
  · subst h
    rw [if_pos rfl]
    exact lookupA_setA_self k0 v l
  · rw [if_neg h]
    exact lookupA_setA_ne v (fun hh => h hh.symm) l

theorem inv_cache_value {S : St} {t : String} {rel : List String}
    {params : Params} {v : PyVal} {flags : List String} (hInv : StInv S) :
    StInv (cache_value S t rel params v flags).2 := by
  obtain ⟨⟨hm, hd⟩, ⟨hmm, hdd, hmd⟩, hnm, hnd⟩ := hInv
  rcases cv_fields S t rel params v flags with ⟨h1, h2, h3, h4⟩
  have hts_ge : S.clock ≤ (cache_value S t rel params v flags).1 :=
    cv_ts_ge S t rel params v flags
  have hts_lt : (cache_value S t rel params v flags).1
      < (cache_value S t rel params v flags).2.clock :=
    cv_ts_lt_clock S t rel params v flags
  have hclk : S.clock < (cache_value S t rel params v flags).2.clock :=
    cv_clock_gt S t rel params v flags
  -- characterize the new memory lookups
  have hmem_char : ∀ k p,
      lookupA k (cache_value S t rel params v flags).2.mem = some p →
      (lookupA k S.mem = some p) ∨
      (k = mix_target t rel params ∧
        p = ((cache_value S t rel params v flags).1, v) ∧ "volatile" ∉ flags) := by
    intro k p hp
    rw [h4] at hp
    by_cases hvol : "volatile" ∈ flags
    · rw [if_pos hvol] at hp
      by_cases hk : k = mix_target t rel params
      · rw [hk, lookupA_delA_self hnm] at hp
        cases hp
      · rw [lookupA_delA_ne hk] at hp
        exact Or.inl hp
    · rw [if_neg hvol, lookupA_setA] at hp
      by_cases hk : mix_target t rel params = k
      · rw [if_pos hk] at hp
        exact Or.inr ⟨hk.symm, ((Option.some.injEq _ _).mp hp).symm, hvol⟩
      · rw [if_neg hk] at hp
        exact Or.inl hp
  have hdsk_char : ∀ k p,
      lookupA k (cache_value S t rel params v flags).2.dsk = some p →
      (lookupA k S.dsk = some p) ∨
      (k = mix_target t rel params ∧ p = (S.clock, v) ∧ "ephemeral" ∉ flags) := by
    intro k p hp
    rw [h3] at hp
    by_cases heph : "ephemeral" ∈ flags
    · rw [if_pos heph] at hp
      exact Or.inl hp
    · rw [if_neg heph, lookupA_setA] at hp
      by_cases hk : mix_target t rel params = k
      · rw [if_pos hk] at hp
        exact Or.inr ⟨hk.symm, ((Option.some.injEq _ _).mp hp).symm, heph⟩
      · rw [if_neg hk] at hp
        exact Or.inl hp
  have hts_eph : "ephemeral" ∉ flags →
      (cache_value S t rel params v flags).1 = S.clock + 1 := by
    intro heph
    rw [h1, if_neg heph]
  refine ⟨⟨?_, ?_⟩, ⟨?_, ?_, ?_⟩, ?_, ?_⟩
  · intro k p hp
    rcases hmem_char k p hp with hold | ⟨_, rfl, _⟩
    · exact lt_trans (hm k p hold) hclk
    · exact hts_lt
  · intro k p hp
    rcases hdsk_char k p hp with hold | ⟨_, rfl, _⟩
    · exact lt_trans (hd k p hold) hclk
    · exact lt_of_le_of_lt hts_ge hts_lt
  · intro k k' p p' hp hp' heqts
    rcases hmem_char k p hp with hold | ⟨rfl, rfl, _⟩ <;>
      rcases hmem_char k' p' hp' with hold' | ⟨rfl, rfl, _⟩
    · exact hmm k k' p p' hold hold' heqts
    · exact absurd heqts (by have := hm k p hold; simp only []; omega)
    · exact absurd heqts (by have := hm k' p' hold'; simp only []; omega)
    · rfl
  · intro k k' p p' hp hp' heqts
    rcases hdsk_char k p hp with hold | ⟨rfl, rfl, _⟩ <;>
      rcases hdsk_char k' p' hp' with hold' | ⟨rfl, rfl, _⟩
    · exact hdd k k' p p' hold hold' heqts
    · exact absurd heqts (by have := hd k p hold; simp only []; omega)
    · exact absurd heqts (by have := hd k' p' hold'; simp only []; omega)
    · rfl
  · intro k k' p p' hp hp' heqts
    rcases hmem_char k p hp with hold | ⟨rfl, rfl, hvol⟩ <;>
      rcases hdsk_char k' p' hp' with hold' | ⟨hk', rfl, heph'⟩
    · exact hmd k k' p p' hold hold' heqts
    · have := hm k p hold
      simp only [] at heqts
      omega
    · have := hd k' p' hold'
      have h5 := hts_ge
      simp only [] at heqts
      omega
    · have h5 := hts_eph heph'
      simp only [] at heqts
      omega
  · rw [h4]
    by_cases hvol : "volatile" ∈ flags
    · rw [if_pos hvol]
      exact nodupKeys_delA _ hnm
    · rw [if_neg hvol]
      exact nodupKeys_setA _ _ hnm
  · rw [h3]
    by_cases heph : "ephemeral" ∈ flags
    · rw [if_pos heph]
      exact hnd
    · rw [if_neg heph]
      exact nodupKeys_setA _ _ hnd

theorem gct_eq_gcv (S : St) (k : Key) : gct S k = (gcv S k).map Prod.fst := by
  unfold gct gcv
  rcases lookupA k S.mem with _ | p
  · rfl
  · rfl

/-- The cache entry visible at the written key after `cache_value`, when the
flags are not the unsupported ephemeral-and-volatile combination: the stored
value with a fresh timestamp, equal to the returned timestamp or (for a
volatile target, where only the earlier disk draw survives) one less. -/
theorem cv_written_good {S : St} {t : String} {rel : List String}
    {params : Params} {v : PyVal} {flags : List String}
    (hng : ¬("ephemeral" ∈ flags ∧ "volatile" ∈ flags))
    (hnm : (S.mem.map Prod.fst).Nodup) :
    ∃ mv, gcv (cache_value S t rel params v flags).2 (mix_target t rel params)
        = some (mv, v) ∧
      S.clock ≤ mv ∧
      ((cache_value S t rel params v flags).1 = mv ∨
        ((cache_value S t rel params v flags).1 = mv + 1 ∧ S.clock = mv)) := by
  rcases cv_fields S t rel params v flags with ⟨h1, h2, h3, h4⟩
  by_cases heph : "ephemeral" ∈ flags <;> by_cases hvol : "volatile" ∈ flags
  · exact absurd ⟨heph, hvol⟩ hng
  · -- ephemeral only: written to memory with ts = S.clock
    refine ⟨S.clock, ?_, le_refl _, Or.inl (by rw [h1, if_pos heph])⟩
    unfold gcv
    rw [h4, if_neg hvol, h1, if_pos heph, lookupA_setA, if_pos rfl]
  · -- volatile only: memory deleted, disk holds (S.clock, v); ts = S.clock + 1
    refine ⟨S.clock, ?_, le_refl _, Or.inr ⟨by rw [h1, if_neg heph], rfl⟩⟩
    unfold gcv
    rw [h4, if_pos hvol, h3, if_neg heph, lookupA_delA_self hnm,
      lookupA_setA, if_pos rfl]
  · -- neither: memory holds (S.clock + 1, v)
    refine ⟨S.clock + 1, ?_, by omega, Or.inl (by rw [h1, if_neg heph])⟩
    unfold gcv
    rw [h4, if_neg hvol, lookupA_setA, if_pos rfl, h1, if_neg heph]

/-- Per-run facts about a successful `check_up_to_date` on a registry with
no ephemeral-and-volatile target: the invariant is preserved, the clock is
monotone, and every cache entry is either untouched or freshly written at a
key reached from the checked target. -/
theorem abw {R : Registry} {params : Params} (hGood : GoodR R) :
    ∀ {fuel : Nat} {t : String} {ko : List String} {S : St} {ts : Nat}
      {S' : St} {iv : List String},
      StInv S →
      check_up_to_date R params fuel t ko S = Outcome.ok (ts, S', iv) →
      StInv S' ∧ S.clock ≤ S'.clock ∧
      (∀ k, gcv S' k = gcv S k ∨
        (∃ w rel2, Reaches R t w ∧ k = mix_target w rel2 params ∧
          ∃ mv v2, gcv S' k = some (mv, v2) ∧ S.clock ≤ mv)) := by
  intro fuel
  induction fuel with
  | zero =>
    intro t ko S ts S' iv hInv h
    exact absurd h (by simp [check_up_to_date])
  | succ fuel ih =>
    intro t ko S ts S' iv hInv h
    rcases check_succ_ok h with
      ⟨d, rel, times, S1, iv1, subp, hd, hrel, htr, hsubp, hbr⟩
    -- the input pass, processed left to right
    have hlist : ∀ (l : List String), (∀ x ∈ l, ∃ g, ∃ dx : Descr,
          find_target g R t = Outcome.ok dx ∧ x ∈ dx.inputs) →
        ∀ (S0 : St) (r : List Nat × St × List String), StInv S0 →
        checkList (fun inp Sx => check_up_to_date R params fuel inp ko Sx) l S0
          = Outcome.ok r →
        StInv r.2.1 ∧ S0.clock ≤ r.2.1.clock ∧
        (∀ k, gcv r.2.1 k = gcv S0 k ∨
          (∃ w rel2, Reaches R t w ∧ k = mix_target w rel2 params ∧
            ∃ mv v2, gcv r.2.1 k = some (mv, v2) ∧ S0.clock ≤ mv)) := by
      intro l
      induction l with
      | nil =>
        intro _ S0 r hInv0 hc
        simp only [checkList, Outcome.ok.injEq] at hc
        rw [← hc]
        exact ⟨hInv0, le_refl _, fun k => Or.inl rfl⟩
      | cons inp rest ihl =>
        intro hmem S0 r hInv0 hc
        simp only [checkList] at hc
        split at hc
        case h_2 => exact absurd hc (by simp)
        case h_3 => exact absurd hc (by simp)
        case h_1 ts0 Sa iva hf0 =>
        split at hc
        case h_2 => exact absurd hc (by simp)
        case h_3 => exact absurd hc (by simp)
        case h_1 times1 Sb ivb hrest =>
        simp only [Outcome.ok.injEq] at hc
        have hstep := ih hInv0 hf0
        obtain ⟨hInva, hcla, hga⟩ := hstep
        have hrest2 := ihl (fun x hx => hmem x (List.mem_cons_of_mem _ hx))
          Sa (times1, Sb, ivb) hInva hrest
        obtain ⟨hInvb, hclb, hgb⟩ := hrest2
        have hSb : Sb = r.2.1 := congrArg (fun x => x.2.1) hc
        rw [hSb] at hInvb hclb hgb
        refine ⟨hInvb, le_trans hcla hclb, ?_⟩
        intro k
        rcases hgb k with hunch | ⟨w, rel2, hrw, hk, mv, v2, hv, hge⟩
        · rcases hga k with hunch2 | ⟨w, rel2, hrw, hk, mv, v2, hv, hge⟩
          · exact Or.inl (by rw [hunch, hunch2])
          · -- written by the head input's run
            obtain ⟨g, dx, hdx, hx⟩ := hmem inp (List.mem_cons_self _ _)
            exact Or.inr ⟨w, rel2, Reaches.step hdx hx hrw, hk, mv, v2,
              by rw [hunch]; exact hv, hge⟩
        · exact Or.inr ⟨w, rel2, hrw, hk, mv, v2, hv, le_trans hcla hge⟩
    have hmem0 : ∀ x ∈ d.inputs, ∃ g, ∃ dx : Descr,
        find_target g R t = Outcome.ok dx ∧ x ∈ dx.inputs :=
      fun x hx => ⟨fuel + 1, d, hd, hx⟩
    have hinputs := hlist d.inputs hmem0 S (times, S1, iv1) hInv htr
    obtain ⟨hInv1, hcl1, hg1⟩ := hinputs
    rcases hbr with ⟨_, m, _, _, _, hS, _⟩ | ⟨ivalues, hload, hts, hS, _, _⟩
    · rw [hS]
      exact ⟨hInv1, hcl1, hg1⟩
    · -- rebuild: one more write at the key of t
      rw [hS]
      set value := d.fn ivalues (pvaluesOf d.pnames params) with hvalue
      have hInv2 : StInv (cache_value S1 t rel params value d.flags).2 :=
        inv_cache_value hInv1
      have hcl2 : S1.clock ≤ (cache_value S1 t rel params value d.flags).2.clock :=
        le_of_lt (cv_clock_gt _ _ _ _ _ _)
      refine ⟨hInv2, le_trans hcl1 hcl2, ?_⟩
      intro k
      by_cases hk : k = mix_target t rel params
      · subst hk
        rcases cv_written_good (hGood _ _ _ hd) hInv1.2.2.1 with ⟨mv, hv, hge, _⟩
        exact Or.inr ⟨t, rel, Reaches.refl t, rfl, mv, value, hv,
          le_trans hcl1 hge⟩
      · have hne := @cv_gcv_ne S1 t rel params value d.flags k hk
        rcases hg1 k with hunch | ⟨w, rel2, hrw, hkk, mv, v2, hv, hge⟩
        · exact Or.inl (by rw [hne, hunch])
        · exact Or.inr ⟨w, rel2, hrw, hkk, mv, v2, by rw [hne]; exact hv, hge⟩

/-! ### C7 -/

theorem gcv_lt_clock {S : St} {k : Key} {p : Nat × PyVal}
    (hInv : StInv S) (h : gcv S k = some p) : p.1 < S.clock := by
  obtain ⟨⟨hm, hd⟩, _, _, _⟩ := hInv
  unfold gcv at h
  rcases hlk : lookupA k S.mem with _ | q
  · rw [hlk] at h
    exact hd k p h
  · rw [hlk] at h
    exact hm k p ((Option.some.injEq _ _).mp h ▸ hlk)

/-- General helper: on a registry without aliases and generators,
resolution is exactly the known-target lookup. -/
theorem find_simple {R : Registry} (ha : R.aliases = []) (hg : R.gens = [])
    {f : Nat} {t : String} {d : Descr} (h : find_target f R t = Outcome.ok d) :
    lookupA t R.known = some d := by
  rcases f with _ | f
  · simp [find_target, walkAliases] at h
  · simp only [find_target, ha, walkAliases, lookupA] at h
    rcases hk : lookupA t R.known with _ | d2
    · rw [hk] at h
      simp [hg, firstGen] at h
    · rw [hk] at h
      simp only [Outcome.ok.injEq] at h
      exact congrArg some h

theorem w1Reg_good : GoodR w1Reg := by
  intro f t d h
  have hmem := lookupA_mem (find_simple rfl rfl h)
  simp only [w1Reg, List.mem_singleton, Prod.mk.injEq] at hmem
  rw [hmem.2]
  intro hc
  simp at hc

/-- C7 counterexample: on an ephemeral-and-volatile target whose memory
entry (from an earlier registration) is newer than its persistent entry,
`create_brave` returns the memory pair `(5, 1)` while `create` rebuilds,
stores nothing, and returns the older persistent pair `(3, 99)`:
`create_brave` returned a strictly newer value than `create`, and not the
same value either.  The initial state satisfies the engine invariant. -/
theorem c7_counterexample :
    StInv c7S ∧
    create_brave c7Reg [] 5 "t7" [] c7S
      = Outcome.ok ((5, PyVal.int 1), c7S, []) ∧
    create c7Reg [] 5 "t7" [] c7S
      = Outcome.ok ((3, PyVal.int 99), c7S1, ["t7"]) ∧
    (3 : Nat) < 5 ∧ PyVal.int 1 ≠ PyVal.int 99 := by
  exact ⟨stInv_of_check (by decide), by decide, by decide, by decide, by decide⟩

/-- C7 amended: on a registry with no ephemeral-and-volatile target,
`create_brave` returns a loadable cached pair as-is — unchanged state, no
task invocation, no freshness check — and otherwise falls back to `create`
(the two calls are then literally the same computation); when both a brave
call and a `create` call from the same state succeed, the brave result is
the very pair `create` returns or an older cached one, never newer. -/
theorem c7_amended (R : Registry) (params : Params) (fuel : Nat)
    (t : String) (S : St) (pb pc : (Nat × PyVal) × St × List String)
    (hGood : GoodR R) (hInv : StInv S)
    (hb : create_brave R params fuel t [] S = Outcome.ok pb)
    (hc : create R params fuel t [] S = Outcome.ok pc) :
    (pb.1 = pc.1 ∨ pb.1.1 < pc.1.1) ∧
    (∀ rel q, gather_relevant_parameters R fuel t = Outcome.ok rel →
      gcv S (mix_target t rel params) = some q → pb = (q, S, [])) ∧
    (∀ rel, gather_relevant_parameters R fuel t = Outcome.ok rel →
      gcv S (mix_target t rel params) = Option.none → pb = pc) := by
  simp only [create_brave] at hb
  split at hb
  case h_2 => exact absurd hb (by simp)
  case h_3 => exact absurd hb (by simp)
  case h_1 rel0 hrel0 =>
  rcases hq : gcv S (mix_target t rel0 params) with _ | q
  · -- miss: brave literally ran create
    rw [hq] at hb
    rw [hc] at hb
    have hpb : pb = pc := ((Outcome.ok.injEq _ _).mp hb).symm
    subst hpb
    refine ⟨Or.inl rfl, ?_, ?_⟩
    · intro rel q hrel hgq
      rw [hrel0] at hrel
      have : rel0 = rel := (Outcome.ok.injEq _ _).mp hrel
      rw [← this] at hgq
      rw [hq] at hgq
      cases hgq
    · intro rel hrel hgq
      rfl
  · -- hit: brave returned the cached pair untouched
    rw [hq] at hb
    have hpb : pb = (q, S, []) := ((Outcome.ok.injEq _ _).mp hb).symm
    refine ⟨?_, fun rel q2 hrel hgq => ?_, fun rel hrel hgq => ?_⟩
    · -- compare with the create run
      simp only [create] at hc
      split at hc
      case h_2 => exact absurd hc (by simp)
      case h_3 => exact absurd hc (by simp)
      case h_1 ts1 S1 iv1 hchk =>
      split at hc
      case h_2 => exact absurd hc (by simp)
      case h_3 => exact absurd hc (by simp)
      case h_1 rel1 hrel1 =>
      rw [hrel0] at hrel1
      have hrel10 : rel0 = rel1 := (Outcome.ok.injEq _ _).mp hrel1
      split at hc
      case h_2 => exact absurd hc (by simp)
      case h_1 qc hqc =>
      have hpc : pc = (qc, S1, iv1) := ((Outcome.ok.injEq _ _).mp hc).symm
      rcases (abw hGood hInv hchk).2.2 (mix_target t rel0 params) with hunch |
        ⟨w, rel2, _, hkk, mv, v2, hv, hge⟩
      · rw [← hrel10] at hqc
        rw [hunch, hq] at hqc
        have : q = qc := (Option.some.injEq _ _).mp hqc
        rw [hpb, hpc, this]
        exact Or.inl rfl
      · rw [← hrel10] at hqc
        rw [hv] at hqc
        have hqc2 : (mv, v2) = qc := (Option.some.injEq _ _).mp hqc
        have hlt : q.1 < S.clock := gcv_lt_clock hInv hq
        rw [hpb, hpc, ← hqc2]
        exact Or.inr (by simp only []; omega)
    · rw [hrel0] at hrel
      have : rel0 = rel := (Outcome.ok.injEq _ _).mp hrel
      rw [← this, hq] at hgq
      have hq2 : q = q2 := (Option.some.injEq _ _).mp hgq
      rw [hpb, hq2]
    · rw [hrel0] at hrel
      have : rel0 = rel := (Outcome.ok.injEq _ _).mp hrel
      rw [← this, hq] at hgq
      cases hgq

/-- C7 witness: the amended statement at a concrete cached state. -/
theorem c7_witness :
    GoodR w1Reg ∧ StInv w7St ∧
    ((((1, PyVal.int 7), w7St, []) : (Nat × PyVal) × St × List String).1
        = (((1, PyVal.int 7), w7St, []) : (Nat × PyVal) × St × List String).1 ∨
      (1 : Nat) < 1) :=
  ⟨w1Reg_good, stInv_of_check (by decide),
   (c7_amended w1Reg [] 2 "t" w7St ((1, PyVal.int 7), w7St, [])
      ((1, PyVal.int 7), w7St, []) w1Reg_good (stInv_of_check (by decide))
      (by decide) (by decide)).1⟩

/-! ### Helpers for the idempotence proof -/

theorem fresh_lt_clock {R : Registry} {params : Params} {g : Nat} {u : String}
    {S : St} {m : Nat} (hInv : StInv S) (h : Fresh R params g u S m) :
    m < S.clock := by
  rcases g with _ | g
  · exact absurd h fresh_pos
  rcases fresh_destruct h with ⟨d, rel, subp, times, _, _, _, hm, _, _⟩
  rw [gct_eq_gcv] at hm
  rcases hv : gcv S (mix_target u rel params) with _ | p
  · rw [hv] at hm; cases hm
  · rw [hv] at hm
    have := gcv_lt_clock hInv hv
    have hp : p.1 = m := (Option.some.injEq _ _).mp hm
    omega

theorem estab_times {R : Registry} {params : Params} {fz : Nat} {S1 : St}
    {bound : Nat} :
    ∀ {l : List String} {times : List Nat},
      List.Forall₂ (fun inp tsi => ∃ mi, Fresh R params fz inp S1 mi ∧
        (tsi = mi ∨ (tsi = mi + 1 ∧ bound ≤ mi))) l times →
      ∃ times2 : List Nat,
        List.Forall₂ (fun inp mi => Fresh R params fz inp S1 mi) l times2 ∧
        List.Forall₂ (fun mi tsi => mi ≤ tsi) times2 times := by
  intro l times h
  induction h with
  | nil => exact ⟨[], List.Forall₂.nil, List.Forall₂.nil⟩
  | cons h1 h2 ih =>
    rcases h1 with ⟨mi, hF, hrel⟩
    rcases ih with ⟨times2, hf2, hle2⟩
    refine ⟨mi :: times2, List.Forall₂.cons hF hf2, List.Forall₂.cons ?_ hle2⟩
    rcases hrel with rfl | ⟨rfl, _⟩
    · exact le_refl _
    · omega

theorem any_le_false {m : Nat} :
    ∀ {l2 l : List Nat}, List.Forall₂ (fun a b => a ≤ b) l2 l →
      l.any (fun x => decide (m < x)) = false →
      l2.any (fun x => decide (m < x)) = false := by
  intro l2 l h
  induction h with
  | nil => intro _; rfl
  | cons h1 h2 ih =>
    intro hany
    rw [List.any_cons, Bool.or_eq_false_iff] at hany ⊢
    obtain ⟨hb, hrest⟩ := hany
    refine ⟨?_, ih hrest⟩
    simp only [decide_eq_false_iff_not, Nat.not_lt] at hb ⊢
    omega

/-- The heart of idempotence: on a registry without ephemeral-and-volatile
targets, a successful knockout-free check preserves the freshness of every
fresh target exactly, and leaves its own target fresh, with the returned
timestamp equal to the recorded one or (volatile target) one above it. -/
theorem cd {R : Registry} {params : Params} (hGood : GoodR R) :
    ∀ {fuel : Nat} {t : String} {S : St} {ts : Nat} {S' : St} {iv : List String},
      StInv S →
      check_up_to_date R params fuel t [] S = Outcome.ok (ts, S', iv) →
      (∀ g u m, Fresh R params g u S m → Fresh R params g u S' m) ∧
      (∃ m, Fresh R params fuel t S' m ∧
        (ts = m ∨ (ts = m + 1 ∧ S.clock ≤ m))) := by
  intro fuel
  induction fuel with
  | zero => intro t S ts S' iv hInv h; exact absurd h (by simp [check_up_to_date])
  | succ fz ih =>
    intro t S ts S' iv hInv h
    rcases check_succ_ok h with
      ⟨d, rel, times, S1, iv1, subp, hd, hrel, htr, hsubp, hbr⟩
    have hlist : ∀ (l : List String) (S0 : St) (times0 : List Nat) (S2 : St)
        (iv0 : List String), StInv S0 →
        checkList (fun inp Sx => check_up_to_date R params fz inp [] Sx) l S0
          = Outcome.ok (times0, S2, iv0) →
        StInv S2 ∧ S0.clock ≤ S2.clock ∧
        (∀ g u m, Fresh R params g u S0 m → Fresh R params g u S2 m) ∧
        List.Forall₂ (fun inp tsi => ∃ mi, Fresh R params fz inp S2 mi ∧
          (tsi = mi ∨ (tsi = mi + 1 ∧ S0.clock ≤ mi))) l times0 ∧
        (∀ k, gcv S2 k = gcv S0 k ∨
          (∃ w rel2 i, i ∈ l ∧ Reaches R i w ∧ k = mix_target w rel2 params ∧
            ∃ mv v2, gcv S2 k = some (mv, v2) ∧ S0.clock ≤ mv)) := by
      intro l
      induction l with
      | nil =>
        intro S0 times0 S2 iv0 hInv0 hc
        simp only [checkList, Outcome.ok.injEq, Prod.mk.injEq] at hc
        obtain ⟨ht0, hS0, hiv0⟩ := hc
        rw [← hS0, ← ht0]
        exact ⟨hInv0, le_refl _, fun g u m hF => hF, List.Forall₂.nil,
          fun k => Or.inl rfl⟩
      | cons inp rest ihl =>
        intro S0 times0 S2 iv0 hInv0 hc
        simp only [checkList] at hc
        split at hc
        case h_2 => exact absurd hc (by simp)
        case h_3 => exact absurd hc (by simp)
        case h_1 ts0 Sa iva hf0 =>
        split at hc
        case h_2 => exact absurd hc (by simp)
        case h_3 => exact absurd hc (by simp)
        case h_1 times1 Sb ivb hrest =>
        simp only [Outcome.ok.injEq, Prod.mk.injEq] at hc
        obtain ⟨ht0, hSb, hiv0⟩ := hc
        obtain ⟨hInva, hcla, hWa⟩ := abw hGood hInv0 hf0
        obtain ⟨hpresa, ma, hFa, hrela⟩ := ih hInv0 hf0
        obtain ⟨hInvb, hclb, hpresb, hestb, hWb⟩ :=
          ihl Sa times1 Sb ivb hInva hrest
        rw [hSb] at hInvb hclb hpresb hestb hWb
        subst ht0
        refine ⟨hInvb, le_trans hcla hclb, ?_, ?_, ?_⟩
        · exact fun g u m hF => hpresb g u m (hpresa g u m hF)
        · refine List.Forall₂.cons ⟨ma, hpresb _ _ _ hFa, hrela⟩ ?_
          refine forall2_imp_mem hestb ?_
          intro a _ b hb
          rcases hb with ⟨mi, hF, hr⟩
          refine ⟨mi, hF, ?_⟩
          rcases hr with rfl | ⟨rfl, hge⟩
          · exact Or.inl rfl
          · exact Or.inr ⟨rfl, le_trans hcla hge⟩
        · intro k
          rcases hWb k with hunchb | ⟨w, rel2, i, hil, hrw, hkk, mv, v2, hv, hge⟩
          · rcases hWa k with huncha | ⟨w, rel2, hrw, hkk, mv, v2, hv, hge⟩
            · exact Or.inl (hunchb.trans huncha)
            · exact Or.inr ⟨w, rel2, inp, List.mem_cons_self _ _, hrw, hkk,
                mv, v2, hunchb ▸ hv, hge⟩
          · exact Or.inr ⟨w, rel2, i, List.mem_cons_of_mem _ hil, hrw, hkk,
              mv, v2, hv, le_trans hcla hge⟩
    obtain ⟨hInv1, hcl1, hpres1, hest1, hW1⟩ :=
      hlist d.inputs S times S1 iv1 hInv htr
    rcases hbr with ⟨_, m, hm, hany, hts, hS, _⟩ |
      ⟨ivalues, hload, hts, hS, _, hcond⟩
    · refine ⟨by rw [hS]; exact hpres1, ?_⟩
      rcases estab_times hest1 with ⟨times2, hf2, hle2⟩
      refine ⟨m, ?_, Or.inl hts⟩
      rw [hS]
      exact fresh_mk hd hrel hsubp hm hf2 (any_le_false hle2 hany)
    · have hcond2 : gct S1 (mix_target t rel params) = Option.none ∨
          ∃ m0, gct S1 (mix_target t rel params) = some m0 ∧
            times.any (fun x => decide (m0 < x)) = true := by
        rcases hcond with hko | hrest2
        · cases hko
        · exact hrest2
      have hNoReach : ∀ g u m, Fresh R params g u S1 m → ¬ Reaches R u t := by
        intro g u m hF hru
        rcases fresh_sub hru hF with ⟨g', _, m_t, hFt⟩
        rcases g' with _ | g''
        · exact absurd hFt fresh_pos
        rcases fresh_destruct hFt with
          ⟨dt, relt, subpt, timest, hdt, hrelt, _, hmt, hint, hanyt⟩
        have hdteq : dt = d := find_det hdt hd
        have hrelteq : relt = rel := gather_det hrelt hrel
        rw [hrelteq] at hmt
        rcases hcond2 with hnone | ⟨m0, hm0, hany0⟩
        · rw [hnone] at hmt; cases hmt
        rw [hm0] at hmt
        have hm0t : m0 = m_t := (Option.some.injEq _ _).mp hmt
        subst hm0t
        rcases List.any_eq_true.mp hany0 with ⟨tsi, htsi, hlt⟩
        have hlt2 : m0 < tsi := of_decide_eq_true hlt
        rcases forall2_mem_right hest1 htsi with ⟨inpw, hinpw, mi, hFi, hri⟩
        subst hdteq
        rcases forall2_mem_left hint hinpw with ⟨mu, hmu, hFu⟩
        have hmule : mu ≤ m0 := by
          have h5 := List.any_eq_false.mp hanyt mu hmu
          have h6 : ¬ m0 < mu := fun hx => h5 (decide_eq_true hx)
          omega
        have hmieq : mu = mi := fresh_unique hFu hFi
        rcases hri with rfl | ⟨rfl, hge⟩
        · omega
        · have hm0ge : S.clock ≤ m0 := by omega
          rcases hW1 (mix_target t rel params) with hunch |
            ⟨w, rel2, i, hil, hrw, hkk, mv, v2, hv, hgemv⟩
          · rcases hv0 : gcv S (mix_target t rel params) with _ | p
            · rw [gct_eq_gcv, hunch, hv0] at hm0
              cases hm0
            · have hlt3 := gcv_lt_clock hInv hv0
              rw [gct_eq_gcv, hunch, hv0] at hm0
              have hp : p.1 = m0 := (Option.some.injEq _ _).mp hm0
              omega
          · have hwt : w = t := (congrArg Prod.fst hkk).symm
            subst hwt
            exact check_no_ok_of_cycle hd hil hrw _ h
      have htransfer : ∀ g u m, Fresh R params g u S1 m →
          Fresh R params g u
            (cache_value S1 t rel params
              (d.fn ivalues (pvaluesOf d.pnames params)) d.flags).2 m := by
        intro g u m hF
        refine fresh_transfer hF ?_
        intro w rel2 hrw
        by_cases hk : mix_target w rel2 params = mix_target t rel params
        · exfalso
          have hwt : w = t := congrArg Prod.fst hk
          subst hwt
          exact hNoReach g u m hF hrw
        · exact cv_gct_ne hk
      refine ⟨?_, ?_⟩
      · intro g u m hF
        rw [hS]
        exact htransfer g u m (hpres1 g u m hF)
      · rcases @cv_written_good S1 t rel params
          (d.fn ivalues (pvaluesOf d.pnames params)) d.flags
          (hGood _ _ _ hd) hInv1.2.2.1 with ⟨mv, hv, hgemv, hcase⟩
        refine ⟨mv, ?_, ?_⟩
        · rw [hS]
          rcases estab_times hest1 with ⟨times2, hf2, hle2⟩
          have hf2b : List.Forall₂ (fun inp mi => Fresh R params fz inp
              (cache_value S1 t rel params
                (d.fn ivalues (pvaluesOf d.pnames params)) d.flags).2 mi)
              d.inputs times2 := by
            refine forall2_imp_mem hf2 ?_
            intro a ha b hb
            refine fresh_transfer hb ?_
            intro w rel2 hrw
            by_cases hk : mix_target w rel2 params = mix_target t rel params
            · exfalso
              have hwt : w = t := congrArg Prod.fst hk
              subst hwt
              exact check_no_ok_of_cycle hd ha hrw _ h
            · exact cv_gct_ne hk
          refine fresh_mk hd hrel hsubp ?_ hf2b ?_
          · rw [gct_eq_gcv, hv]
            rfl
          · rw [List.any_eq_false]
            intro mi hmi
            rcases forall2_mem_right hf2 hmi with ⟨inpw, _, hFw⟩
            have h7 := fresh_lt_clock hInv1 hFw
            intro hdec
            have h8 := of_decide_eq_true hdec
            omega
        · subst hts
          rcases hcase with heq | ⟨heq, hclk⟩
          · exact Or.inl heq
          · exact Or.inr ⟨heq, by omega⟩

/-! ### C1 -/

/-- C1 counterexample: `t` carries both the ephemeral and the volatile flag
and a stale persistent entry.  The first `create("t")` succeeds (returning
the stale persistent pair), but the second `create("t")` with no intervening
registry change invokes `t`'s task function again (its invocation log is
`["t"]`, not `[]`), because the rebuild stored nothing.  The claim's
"without re-invoking any task function" fails.  The initial state satisfies
the engine invariant. -/
theorem c1_counterexample :
    StInv c1S0 ∧
    create c1Reg [] 5 "t" [] c1S0
      = Outcome.ok ((0, PyVal.int 99), c1S1, ["y", "t"]) ∧
    create c1Reg [] 5 "t" [] c1S1
      = Outcome.ok ((0, PyVal.int 99), c1S2, ["t"]) ∧
    (["t"] : List String) ≠ [] := by
  exact ⟨stInv_of_check (by decide), by decide, by decide, by decide⟩

/-- C1 amended: on a registry in which no resolvable target carries both
the ephemeral and the volatile flag, a second `create(t, params)` after a
successful one (no intervening registry changes, no knockout) returns the
identical `(ts, value)` pair, leaves the state untouched, and invokes no
task function. -/
theorem c1_amended (R : Registry) (params : Params) (fuel : Nat) (t : String)
    (S : St) (p : Nat × PyVal) (S' : St) (iv : List String)
    (hGood : GoodR R) (hInv : StInv S)
    (h : create R params fuel t [] S = Outcome.ok (p, S', iv)) :
    create R params fuel t [] S' = Outcome.ok (p, S', []) := by
  simp only [create] at h
  split at h
  case h_2 => exact absurd h (by simp)
  case h_3 => exact absurd h (by simp)
  case h_1 ts1 S1 iv1 hchk =>
  split at h
  case h_2 => exact absurd h (by simp)
  case h_3 => exact absurd h (by simp)
  case h_1 rel hrel =>
  split at h
  case h_2 => exact absurd h (by simp)
  case h_1 q hq =>
  simp only [Outcome.ok.injEq, Prod.mk.injEq] at h
  obtain ⟨hqp, hS1, hiv1⟩ := h
  obtain ⟨hpres, m, hFresh, _⟩ := cd hGood hInv hchk
  rw [hS1] at hFresh hq
  unfold Fresh at hFresh
  simp only [create, hFresh, hrel, hq, hqp]

/-- C1 witness: the amended statement at a concrete one-task registry.  The
first `create` builds and caches the value; the second returns the identical
pair with an empty invocation log. -/
theorem c1_witness :
    GoodR w1Reg ∧ StInv emptySt ∧
    create w1Reg [] 2 "t" [] w7St = Outcome.ok ((1, PyVal.int 7), w7St, []) :=
  ⟨w1Reg_good, stInv_of_check (by decide),
   c1_amended w1Reg [] 2 "t" emptySt (1, PyVal.int 7) w7St ["t"]
     w1Reg_good (stInv_of_check (by decide)) (by decide)⟩
